import Mathlib

set_option maxHeartbeats 1000000
set_option linter.unusedSectionVars false

/-!
Verification of the photo-dedup repository core against its specification.

Part 1 embeds the clustering engine of `scripts/dedup.py`
(`cluster_images`, `pick_best`, and the report counters of `main`).
Part 2 embeds the trash manager of `scripts/review_server.py`
(the `/remove` and `/undo` handlers of `ReviewHandler.do_POST`).
-/

namespace PhotoDedup

/-! ### Clustering engine (scripts/dedup.py) -/

/-- Hamming distance between the binary representations of `a` and `b`,
computed bit by bit with explicit fuel (`a + b` bounds the bit length).
This embeds the `imagehash` subtraction `image_hashes[file_a] - image_hashes[file_b]`,
which counts differing bits of the two fingerprints. -/
def hammingFuel : Nat → Nat → Nat → Nat
  | 0, _, _ => 0
  | f + 1, a, b => (if a % 2 = b % 2 then 0 else 1) + hammingFuel f (a / 2) (b / 2)

/-- Hamming distance of two fingerprints given as natural numbers. -/
def hamming (a b : Nat) : Nat := hammingFuel (a + b) a b

variable {α : Type} [DecidableEq α]

/-- `cluster_images` from scripts/dedup.py.  `files` is the key list of the
input dict (keys are unique, in scan order) and `visited` the visited set.
For each unvisited seed `a` the cluster collects the later unvisited records
within `threshold` Hamming distance of the seed; all collected records are
marked visited before the remaining files are processed. -/
def cluster_images (hash : α → Nat) (threshold : Nat) :
    List α → List α → List (List α)
  | [], _ => []
  | a :: rest, visited =>
    if a ∈ visited then cluster_images hash threshold rest visited
    else
      (a :: rest.filter (fun b =>
          decide (b ∉ visited) && decide (hamming (hash a) (hash b) ≤ threshold))) ::
        cluster_images hash threshold rest
          (visited ++ a :: rest.filter (fun b =>
            decide (b ∉ visited) && decide (hamming (hash a) (hash b) ≤ threshold)))

/-- `pick_best` from scripts/dedup.py: Python `max(cluster, key=size)` keeps the
first element seen and replaces it only when a later element's key is strictly
greater, so it returns the first element with maximal key. -/
def pick_best (size : α → Nat) : List α → Option α
  | [] => none
  | a :: l => some (l.foldl (fun best x => if size best < size x then x else best) a)

/-- Selection rule as the specification words it: the earliest member of the
cluster whose `sizeBytes` is greater than or equal to every member's.  Used to
state that `pick_best` refines the spec's SelectionPolicy. -/
def firstWithMaxSize (size : α → Nat) (l : List α) : Option α :=
  l.find? (fun x => decide (∀ y ∈ l, size y ≤ size x))

/-- Duplicate count contributed by one cluster in `main`:
`dupes = [f for f in cluster if f != best]`. -/
def dupCountOf (size : α → Nat) (c : List α) : Nat :=
  match pick_best size c with
  | none => 0
  | some best => (c.filter (fun f => decide (f ≠ best))).length

/-- The three counters of the report assembled in `main` of scripts/dedup.py:
`total_scanned = len(hashes)`, `unique_count = len(unique_picks)` (one pick per
cluster), `duplicate_count` summed over clusters. -/
def reportTotals (hash size : α → Nat) (threshold : Nat) (files : List α) :
    Nat × Nat × Nat :=
  (files.length,
   (cluster_images hash threshold files []).length,
   ((cluster_images hash threshold files []).map (dupCountOf size)).sum)

/-! ### Clustering proofs -/

theorem cluster_images_flatten_perm (hash : α → Nat) (t : Nat) :
    ∀ (files visited : List α), files.Nodup →
      List.Perm (cluster_images hash t files visited).flatten
        (files.filter (fun b => decide (b ∉ visited))) := by
  intro files
  induction files with
  | nil => intro visited _; simp [cluster_images]
  | cons a rest ih =>
    intro visited hnd
    have hna : a ∉ rest := (List.nodup_cons.mp hnd).1
    have hndr : rest.Nodup := (List.nodup_cons.mp hnd).2
    by_cases hav : a ∈ visited
    · rw [cluster_images, if_pos hav]
      simpa [List.filter_cons, hav] using ih visited hndr
    · rw [cluster_images, if_neg hav]
      set pd : α → Bool := fun b => decide (hamming (hash a) (hash b) ≤ t) with hpd
      set pb : α → Bool := fun b => decide (b ∉ visited) with hpb
      have hfc : (a :: rest).filter pb = a :: rest.filter pb := by
        simp [hpb, List.filter_cons, hav]
      rw [hfc]
      have hmem : rest.filter (fun b => decide (b ∉ visited) &&
          decide (hamming (hash a) (hash b) ≤ t)) = rest.filter (fun b => pb b && pd b) := rfl
      have ihr := ih (visited ++ a :: rest.filter (fun b => pb b && pd b)) hndr
      have hcongr : ∀ b ∈ rest,
          (decide (b ∉ visited ++ a :: rest.filter (fun b => pb b && pd b))) =
          (pb b && !pd b) := by
        intro b hb
        have hba : b ≠ a := fun h => hna (h ▸ hb)
        by_cases hv : b ∈ visited <;> by_cases hd : pd b = true <;>
          simp [hpb, hpd, List.mem_append, List.mem_cons, List.mem_filter, hv, hba, hb] at hd ⊢ <;>
          simp [hd]
      rw [List.filter_congr hcongr] at ihr
      have h1 : (rest.filter pb).filter pd = rest.filter (fun b => pb b && pd b) := by
        rw [List.filter_filter]
        exact List.filter_congr (fun x _ => Bool.and_comm _ _)
      have h2 : (rest.filter pb).filter (fun x => !pd x) =
          rest.filter (fun b => pb b && !pd b) := by
        rw [List.filter_filter]
        exact List.filter_congr (fun x _ => Bool.and_comm _ _)
      have hperm : List.Perm (rest.filter (fun b => pb b && pd b) ++
          rest.filter (fun b => pb b && !pd b)) (rest.filter pb) := by
        rw [← h1, ← h2]
        exact List.filter_append_perm pd (rest.filter pb)
      have hflat : ((a :: rest.filter (fun b => pb b && pd b)) ::
              cluster_images hash t rest
                (visited ++ a :: rest.filter (fun b => pb b && pd b))).flatten
          = a :: (rest.filter (fun b => pb b && pd b) ++
              (cluster_images hash t rest
                (visited ++ a :: rest.filter (fun b => pb b && pd b))).flatten) := by
        simp
      rw [hflat]
      exact List.Perm.cons a
        ((List.Perm.append_left _ ihr).trans hperm)

/-- C2: the clusters returned by `cluster_images` partition the input: their
members, taken together, are a permutation of the input files, and every input
file occurs in exactly one cluster (count 1 across all clusters). -/
theorem cluster_images_partitions (hash : α → Nat) (t : Nat) (files : List α)
    (hnd : files.Nodup) (p : α) (hp : p ∈ files) :
    List.Perm (cluster_images hash t files []).flatten files ∧
    ((cluster_images hash t files []).flatten).count p = 1 := by
  have h := cluster_images_flatten_perm hash t files [] hnd
  have hfp : files.filter (fun b => decide (b ∉ ([] : List α))) = files := by
    simp
  rw [hfp] at h
  exact ⟨h, by rw [h.count_eq]; exact List.count_eq_one_of_mem hnd hp⟩

/-- Witness for C2 at a concrete input. -/
theorem cluster_images_partitions_witness :
    List.Perm (cluster_images (fun n : Nat => n) 1 [0, 1, 4] []).flatten [0, 1, 4] ∧
    ((cluster_images (fun n : Nat => n) 1 [0, 1, 4] []).flatten).count 4 = 1 :=
  cluster_images_partitions (fun n => n) 1 [0, 1, 4] (by decide) 4 (by decide)

theorem foldl_pick_decomp (size : α → Nat) :
    ∀ (l : List α) (a : α),
      ∃ l₁ l₂,
        a :: l = l₁ ++ (l.foldl (fun best x => if size best < size x then x else best) a) :: l₂ ∧
        (∀ z ∈ l₁, size z < size (l.foldl (fun best x => if size best < size x then x else best) a)) ∧
        (∀ z ∈ l₂, size z ≤ size (l.foldl (fun best x => if size best < size x then x else best) a)) := by
  intro l
  induction l with
  | nil => intro a; exact ⟨[], [], rfl, by simp, by simp⟩
  | cons x xs ih =>
    intro a
    rw [List.foldl_cons]
    by_cases h : size a < size x
    · rw [if_pos h]
      obtain ⟨l₁, l₂, hdec, hlt, hle⟩ := ih x
      refine ⟨a :: l₁, l₂, by rw [List.cons_append, ← hdec], ?_, hle⟩
      intro z hz
      rcases List.mem_cons.mp hz with rfl | hz'
      · rcases l₁ with _ | ⟨y, l₁'⟩
        · simp only [List.nil_append] at hdec
          have hx := (List.cons.injEq _ _ _ _).mp hdec
          rw [← hx.1]
          exact h
        · have hx : x = y := by
            rw [List.cons_append] at hdec
            exact ((List.cons.injEq _ _ _ _).mp hdec).1
          exact lt_trans h (hx ▸ hlt y (List.mem_cons_self y l₁'))
      · exact hlt z hz'
    · rw [if_neg h]
      have hxa : size x ≤ size a := Nat.le_of_not_lt h
      obtain ⟨l₁, l₂, hdec, hlt, hle⟩ := ih a
      rcases l₁ with _ | ⟨y, l₁'⟩
      · simp only [List.nil_append] at hdec
        have hx := (List.cons.injEq _ _ _ _).mp hdec
        refine ⟨[], x :: xs, by rw [List.nil_append, ← hx.1], by simp, ?_⟩
        intro z hz
        rcases List.mem_cons.mp hz with rfl | hz'
        · exact le_trans hxa (le_of_eq (congrArg size hx.1))
        · exact hx.2 ▸ hle z (hx.2 ▸ hz')
      · rw [List.cons_append] at hdec
        have hx := (List.cons.injEq _ _ _ _).mp hdec
        refine ⟨a :: x :: l₁', l₂, ?_, ?_, hle⟩
        · rw [List.cons_append, List.cons_append, ← hx.2]
        · intro z hz
          have hay : size a < size (xs.foldl (fun best x => if size best < size x then x else best) a) := by
            have := hlt y (List.mem_cons_self y l₁')
            rw [← hx.1] at this
            exact this
          rcases List.mem_cons.mp hz with rfl | hz'
          · exact hay
          · rcases List.mem_cons.mp hz' with rfl | hz''
            · exact lt_of_le_of_lt hxa hay
            · exact hlt z (List.mem_cons_of_mem y hz'')

theorem find?_append_first {p : α → Bool} :
    ∀ (l₁ : List α) (r : α) (l₂ : List α),
      (∀ x ∈ l₁, p x = false) → p r = true →
      List.find? p (l₁ ++ r :: l₂) = some r := by
  intro l₁
  induction l₁ with
  | nil => intro r l₂ _ hr; simp [List.find?_cons, hr]
  | cons x l₁ ih =>
    intro r l₂ hf hr
    have hx := hf x (List.mem_cons_self _ _)
    rw [List.cons_append, List.find?_cons, hx]
    exact ih r l₂ (fun y hy => hf y (List.mem_cons_of_mem _ hy)) hr

/-- C6: `pick_best` implements the specification's SelectionPolicy exactly:
it returns the earliest member of the cluster (in the cluster's scan order)
whose size is greater than or equal to every member's size — the largest
member, with ties broken in favor of the first-seen member. -/
theorem pick_best_eq_firstWithMaxSize (size : α → Nat) (c : List α) :
    pick_best size c = firstWithMaxSize size c := by
  rcases c with _ | ⟨a, l⟩
  · rfl
  · obtain ⟨l₁, l₂, hdec, hlt, hle⟩ := foldl_pick_decomp size l a
    set r := l.foldl (fun best x => if size best < size x then x else best) a with hr
    have hrmem : r ∈ a :: l := by
      rw [hdec]
      exact List.mem_append_right l₁ (List.mem_cons_self r l₂)
    have hrtrue : (fun x => decide (∀ y ∈ a :: l, size y ≤ size x)) r = true := by
      simp only [decide_eq_true_eq]
      intro y hy
      rw [hdec] at hy
      rcases List.mem_append.mp hy with hy1 | hy2
      · exact le_of_lt (hlt y hy1)
      · rcases List.mem_cons.mp hy2 with rfl | hy3
        · exact le_refl _
        · exact hle y hy3
    have hfalse : ∀ x ∈ l₁, (fun x => decide (∀ y ∈ a :: l, size y ≤ size x)) x = false := by
      intro x hx
      simp only [decide_eq_false_iff_not]
      intro hall
      exact absurd (hall r hrmem) (Nat.not_le_of_lt (hlt x hx))
    rw [pick_best, firstWithMaxSize, ← hr]
    have hq := congrArg (List.find? (fun x => decide (∀ y ∈ a :: l, size y ≤ size x))) hdec
    rw [hq, find?_append_first l₁ r l₂ hfalse hrtrue]

/-! ### Report counters (C9) -/

theorem cluster_images_ne_nil (hash : α → Nat) (t : Nat) :
    ∀ (files visited : List α), ∀ c ∈ cluster_images hash t files visited, c ≠ [] := by
  intro files
  induction files with
  | nil => intro visited c hc; simp [cluster_images] at hc
  | cons a rest ih =>
    intro visited c hc
    rw [cluster_images] at hc
    by_cases hav : a ∈ visited
    · rw [if_pos hav] at hc
      exact ih _ c hc
    · rw [if_neg hav] at hc
      rcases List.mem_cons.mp hc with rfl | h'
      · simp
      · exact ih _ c h'

theorem length_filter_ne (r : α) :
    ∀ (c : List α), (c.filter (fun f => decide (f ≠ r))).length + c.count r = c.length := by
  intro c
  induction c with
  | nil => simp
  | cons x xs ih =>
    by_cases hx : x = r
    · subst hx
      simp [List.filter_cons, List.count_cons] at ih ⊢
      omega
    · simp [List.filter_cons, List.count_cons, hx] at ih ⊢
      omega

theorem pick_best_mem (size : α → Nat) (c : List α) (r : α)
    (h : pick_best size c = some r) : r ∈ c := by
  rcases c with _ | ⟨a, l⟩
  · simp [pick_best] at h
  · obtain ⟨l₁, l₂, hdec, _, _⟩ := foldl_pick_decomp size l a
    rw [pick_best, Option.some.injEq] at h
    rw [hdec, ← h]
    exact List.mem_append_right l₁ (List.mem_cons_self _ l₂)

theorem dupCountOf_add_one (size : α → Nat) (c : List α)
    (hne : c ≠ []) (hnd : c.Nodup) : dupCountOf size c + 1 = c.length := by
  rcases c with _ | ⟨a, l⟩
  · exact absurd rfl hne
  · have hr : pick_best size (a :: l) =
        some (l.foldl (fun best x => if size best < size x then x else best) a) := rfl
    have hmem := pick_best_mem size (a :: l) _ hr
    have hcount := List.count_eq_one_of_mem hnd hmem
    have hlen := length_filter_ne (l.foldl (fun best x => if size best < size x then x else best) a) (a :: l)
    have hunfold : dupCountOf size (a :: l) =
        (List.filter (fun f => decide
          (f ≠ l.foldl (fun best x => if size best < size x then x else best) a)) (a :: l)).length := rfl
    rw [hcount] at hlen
    rw [hunfold]
    omega

theorem sum_dup_eq (size : α → Nat) :
    ∀ (L : List (List α)), (∀ c ∈ L, dupCountOf size c + 1 = c.length) →
      L.length + (L.map (dupCountOf size)).sum = (L.map List.length).sum := by
  intro L
  induction L with
  | nil => simp
  | cons c L ih =>
    intro h
    have hc := h c (List.mem_cons_self _ _)
    have hL := ih (fun d hd => h d (List.mem_cons_of_mem _ hd))
    simp only [List.length_cons, List.map_cons, List.sum_cons]
    omega

/-- C9: the report always satisfies `total_scanned = unique_count + duplicate_count`:
the number of scanned files equals the number of clusters (one representative
each) plus the total number of non-representative members. -/
theorem report_total_scanned_eq (hash size : α → Nat) (t : Nat) (files : List α)
    (hnd : files.Nodup) :
    (reportTotals hash size t files).1 =
      (reportTotals hash size t files).2.1 + (reportTotals hash size t files).2.2 := by
  have hperm := cluster_images_flatten_perm hash t files [] hnd
  rw [show files.filter (fun b => decide (b ∉ ([] : List α))) = files by simp] at hperm
  have hlen : ((cluster_images hash t files []).map List.length).sum = files.length := by
    rw [← List.length_flatten]
    exact hperm.length_eq
  have hflatnd : (cluster_images hash t files []).flatten.Nodup :=
    (hperm.symm).nodup hnd
  have hnec : ∀ c ∈ cluster_images hash t files [], dupCountOf size c + 1 = c.length := by
    intro c hc
    have h1 : c ≠ [] := cluster_images_ne_nil hash t files [] c hc
    have h2 : c.Nodup := List.Nodup.sublist (List.sublist_flatten_of_mem hc) hflatnd
    exact dupCountOf_add_one size c h1 h2
  have hsum := sum_dup_eq size _ hnec
  simp only [reportTotals]
  omega

/-- Witness for C9 at a concrete input. -/
theorem report_total_scanned_eq_witness :
    (reportTotals (fun n : Nat => n) (fun n : Nat => n) 1 [0, 1, 4]).1 =
      (reportTotals (fun n : Nat => n) (fun n : Nat => n) 1 [0, 1, 4]).2.1 +
      (reportTotals (fun n : Nat => n) (fun n : Nat => n) 1 [0, 1, 4]).2.2 :=
  report_total_scanned_eq (fun n => n) (fun n => n) 1 [0, 1, 4] (by decide)

/-! ### Trash manager (scripts/review_server.py)

The `/remove` and `/undo` branches of `ReviewHandler.do_POST` are embedded as
pure functions over an explicit filesystem state.  Paths are absolute path
strings; the filesystem is an association list from occupied paths to file
contents.  `manifest.json` inside the trash directory is an ordinary file of
the filesystem, as it is on disk. -/

abbrev Path := String

/-- File content: an opaque photo payload, or the persisted manifest. -/
inductive Content where
  | photo (n : Nat)
  | mani (m : List (Path × Path))
deriving DecidableEq

abbrev FS := List (Path × Content)

/-- Content stored at path `p`, if any. -/
def fsLookup : FS → Path → Option Content
  | [], _ => none
  | e :: fs, p => if e.1 = p then some e.2 else fsLookup fs p

/-- `Path.exists()` in the model. -/
def occupied (fs : FS) (p : Path) : Bool := (fsLookup fs p).isSome

def fsErase : FS → Path → FS
  | [], _ => []
  | e :: fs, p => if e.1 = p then fsErase fs p else e :: fsErase fs p

def fsWrite (fs : FS) (p : Path) (c : Content) : FS := (p, c) :: fsErase fs p

/-- `shutil.move src dst`: when `src` exists its content moves to `dst`
(a rename; an existing regular file at `dst` is replaced). -/
def fsMove (fs : FS) (src dst : Path) : FS :=
  match fsLookup fs src with
  | some c => fsWrite (fsErase fs src) dst c
  | none => fs

/-- Decimal digit to character. -/
def digitChar : Nat → Char
  | 0 => '0' | 1 => '1' | 2 => '2' | 3 => '3' | 4 => '4'
  | 5 => '5' | 6 => '6' | 7 => '7' | 8 => '8' | 9 => '9'
  | _ => 'x'

/-- Little-endian decimal digits of `n`, with fuel (`n` itself suffices). -/
def digitsRev : Nat → Nat → List Nat
  | 0, _ => []
  | f + 1, n => if n = 0 then [] else n % 10 :: digitsRev f (n / 10)

/-- Decimal rendering of a counter, as Python's `f"{counter}"`. -/
def natStr (n : Nat) : String :=
  if n = 0 then "0" else String.mk (((digitsRev n n).reverse).map digitChar)

/-- Characters of the final path component (`PurePath.name`): everything after
the last `/`. -/
def nameOf (p : Path) : String :=
  String.mk ((p.data.reverse.takeWhile (fun c => !(c == '/'))).reverse)

/-- `PurePath.stem` and `PurePath.suffix` of a file name: split at the last
dot, except when that dot is the first or the last character of the name
(then the suffix is empty and the stem is the whole name). -/
def splitExt (n : String) : String × String :=
  match n.data.reverse.dropWhile (fun c => !(c == '.')) with
  | [] => (n, "")
  | _ :: rest =>
    if rest.isEmpty || (n.data.reverse.takeWhile (fun c => !(c == '.'))).isEmpty then
      (n, "")
    else
      (String.mk rest.reverse,
       String.mk ('.' :: (n.data.reverse.takeWhile (fun c => !(c == '.'))).reverse))

/-- First candidate destination in the trash: `TRASH_DIR / fpath.name`. -/
def baseDest (t p : Path) : Path := t ++ "/" ++ nameOf p

/-- Collision candidate `TRASH_DIR / f"{stem}_{counter}{suffix}"`. -/
def candDest (t p : Path) (k : Nat) : Path :=
  t ++ "/" ++ ((splitExt (nameOf p)).1 ++ "_" ++ natStr k ++ (splitExt (nameOf p)).2)

/-- The `while trash_dest.exists()` search, with fuel.  `fs.length + 1`
candidates always contain a free one, so the fuel never runs out. -/
def freshLoop (fs : FS) (mk : Nat → Path) : Nat → Nat → Path
  | 0, k => mk k
  | f + 1, k => if occupied fs (mk k) then freshLoop fs mk f (k + 1) else mk k

/-- Destination chosen by the `/remove` handler for source file `p`. -/
def freshDest (fs : FS) (t p : Path) : Path :=
  if occupied fs (baseDest t p) then freshLoop fs (candDest t p) (fs.length + 1) 1
  else baseDest t p

/-- `TRASH_DIR / 'manifest.json'`. -/
def manifestPath (t : Path) : Path := t ++ "/" ++ "manifest.json"

/-- `l` starts with `pre`. -/
def dataStarts : List Char → List Char → Bool
  | [], _ => true
  | _ :: _, [] => false
  | a :: as, b :: bs => a == b && dataStarts as bs

/-- `p` lies inside directory `t` (Bool form, used by the `iterdir` check). -/
def isUnderB (t p : Path) : Bool := dataStarts (t ++ "/").data p.data

/-- `p` lies inside directory `t` (Prop form). -/
def underDir (t p : Path) : Prop := ∃ s, p = t ++ "/" ++ s

/-- Python dict assignment `TRASH_MANIFEST[k] = v`: replaces the value of an
existing key in place, otherwise appends (dicts preserve insertion order). -/
def dictInsert (k v : Path) : List (Path × Path) → List (Path × Path)
  | [] => [(k, v)]
  | (k1, v1) :: rest =>
    if k1 = k then (k1, v) :: rest else (k1, v1) :: dictInsert k v rest

/-- Filesystem / manifest events of one handler execution, in order. -/
inductive Ev where
  | mkdirTrash
  | move (src dst : Path)
  | writeMani (m : List (Path × Path))
deriving DecidableEq

/-- Server state: the filesystem, whether `TRASH_DIR` exists as a directory,
and the in-memory `TRASH_MANIFEST`. -/
structure St where
  fs : FS
  trashExists : Bool
  mani : List (Path × Path)
deriving DecidableEq

inductive RmRes where
  | ok (count : Nat) (trashDir : Path)
  | err
deriving DecidableEq

structure RemLoopOut where
  st : St
  moved : Nat
  tr : List Ev
  ok : Bool
deriving DecidableEq

/-- The `for fpath_str in files` loop of the `/remove` branch.  A missing
source file is skipped; `fails p = true` models `shutil.move` raising on `p`,
which aborts the whole loop (the surrounding `try` catches it after the
earlier moves have already happened). -/
def removeLoop (t : Path) (fails : Path → Bool) : List Path → St → Nat → RemLoopOut
  | [], s, moved => ⟨s, moved, [], true⟩
  | p :: rest, s, moved =>
    if occupied s.fs p then
      if fails p then ⟨s, moved, [], false⟩
      else
        let dst := freshDest s.fs t p
        let out := removeLoop t fails rest
          { s with fs := fsMove s.fs p dst, mani := dictInsert p dst s.mani } (moved + 1)
        ⟨out.st, out.moved, Ev.move p dst :: out.tr, out.ok⟩
    else removeLoop t fails rest s moved

structure RemOut where
  st : St
  res : RmRes
  tr : List Ev
deriving DecidableEq

/-- The `/remove` branch of `do_POST`: create the trash directory, move each
existing file to a fresh destination, then persist the manifest.  On an
exception the partial state is kept and an error result is returned. -/
def removeHandler (t : Path) (fails : Path → Bool) (files : List Path) (s : St) : RemOut :=
  let out := removeLoop t fails files { s with trashExists := true } 0
  if out.ok then
    ⟨{ out.st with fs := fsWrite out.st.fs (manifestPath t) (.mani out.st.mani) },
      .ok out.moved t, Ev.mkdirTrash :: out.tr ++ [Ev.writeMani out.st.mani]⟩
  else ⟨out.st, .err, Ev.mkdirTrash :: out.tr⟩

inductive UndoRes where
  | ok (count : Nat)
  | err
deriving DecidableEq

structure UndoLoopOut where
  fs : FS
  restored : Nat
  ok : Bool
deriving DecidableEq

/-- The `for original_str, trash_str in list(TRASH_MANIFEST.items())` loop of
the `/undo` branch: entries whose trash file is missing are skipped silently;
`fails d = true` models `shutil.move` (or the parent `mkdir`) raising, which
aborts the loop.  The loop itself never modifies the manifest. -/
def undoLoop (fails : Path → Bool) : List (Path × Path) → FS → Nat → UndoLoopOut
  | [], fs, r => ⟨fs, r, true⟩
  | (orig, d) :: rest, fs, r =>
    if occupied fs d then
      if fails d then ⟨fs, r, false⟩
      else undoLoop fails rest (fsMove fs d orig) (r + 1)
    else undoLoop fails rest fs r

/-- The `/undo` branch of `do_POST`: restore what can be restored, then clear
the in-memory manifest unconditionally, delete `manifest.json` if present, and
remove the trash directory when it is empty.  On an exception the manifest is
left as it was and an error result is returned. -/
def undoHandler (t : Path) (fails : Path → Bool) (s : St) : St × UndoRes :=
  let out := undoLoop fails s.mani s.fs 0
  if out.ok then
    ⟨⟨fsErase out.fs (manifestPath t),
      s.trashExists && (fsErase out.fs (manifestPath t)).any (fun e => isUnderB t e.1),
      []⟩, .ok out.restored⟩
  else ⟨⟨out.fs, s.trashExists, s.mani⟩, .err⟩

/-- A sequence of `/remove` batches, each with its own failure behavior. -/
def runBatches (t : Path) : List (List Path × (Path → Bool)) → St → St
  | [], s => s
  | b :: bs, s => runBatches t bs (removeHandler t b.2 b.1 s).st

/-! ### Filesystem lemmas -/

theorem fsLookup_fsErase_self (fs : FS) (p : Path) :
    fsLookup (fsErase fs p) p = none := by
  induction fs with
  | nil => rfl
  | cons e fs ih =>
    rw [fsErase]
    by_cases h : e.1 = p
    · rw [if_pos h]; exact ih
    · rw [if_neg h, fsLookup, if_neg h]; exact ih

theorem fsLookup_fsErase_ne (fs : FS) (p q : Path) (h : q ≠ p) :
    fsLookup (fsErase fs p) q = fsLookup fs q := by
  induction fs with
  | nil => rfl
  | cons e fs ih =>
    rw [fsErase, fsLookup]
    by_cases hk : e.1 = p
    · rw [if_pos hk, if_neg (by rw [hk]; exact Ne.symm h)]
      exact ih
    · rw [if_neg hk, fsLookup]
      by_cases hq : e.1 = q
      · rw [if_pos hq, if_pos hq]
      · rw [if_neg hq, if_neg hq]; exact ih

theorem fsLookup_fsWrite_self (fs : FS) (p : Path) (c : Content) :
    fsLookup (fsWrite fs p c) p = some c := by
  rw [fsWrite, fsLookup, if_pos rfl]

theorem fsLookup_fsWrite_ne (fs : FS) (p : Path) (c : Content) (q : Path) (h : q ≠ p) :
    fsLookup (fsWrite fs p c) q = fsLookup fs q := by
  rw [fsWrite, fsLookup, if_neg (Ne.symm h)]
  exact fsLookup_fsErase_ne fs p q h

theorem fsLookup_fsMove_dst (fs : FS) (src dst : Path) (c : Content)
    (h : fsLookup fs src = some c) :
    fsLookup (fsMove fs src dst) dst = some c := by
  rw [fsMove, h]
  exact fsLookup_fsWrite_self _ dst c

theorem fsLookup_fsMove_src (fs : FS) (src dst : Path) (c : Content)
    (h : fsLookup fs src = some c) (hne : src ≠ dst) :
    fsLookup (fsMove fs src dst) src = none := by
  rw [fsMove, h, fsLookup_fsWrite_ne _ _ _ _ hne]
  exact fsLookup_fsErase_self fs src

theorem fsLookup_fsMove_other (fs : FS) (src dst q : Path)
    (h1 : q ≠ src) (h2 : q ≠ dst) :
    fsLookup (fsMove fs src dst) q = fsLookup fs q := by
  rw [fsMove]
  cases hl : fsLookup fs src with
  | none => rfl
  | some c =>
    rw [fsLookup_fsWrite_ne _ _ _ _ h2]
    exact fsLookup_fsErase_ne fs src q h1

theorem occupied_iff_entry (fs : FS) (p : Path) :
    occupied fs p = true ↔ ∃ c, (p, c) ∈ fs := by
  unfold occupied
  induction fs with
  | nil => simp [fsLookup]
  | cons e fs ih =>
    rw [fsLookup]
    by_cases h : e.1 = p
    · rw [if_pos h]
      simp only [Option.isSome_some, List.mem_cons, true_iff]
      exact ⟨e.2, Or.inl (by rw [← h])⟩
    · rw [if_neg h]
      rw [ih]
      constructor
      · rintro ⟨c, hc⟩
        exact ⟨c, List.mem_cons_of_mem e hc⟩
      · rintro ⟨c, hc⟩
        rcases List.mem_cons.mp hc with hc1 | hc2
        · exact absurd (congrArg Prod.fst hc1).symm h
        · exact ⟨c, hc2⟩

theorem occupied_of_entry (fs : FS) (e : Path × Content) (he : e ∈ fs) :
    occupied fs e.1 = true :=
  (occupied_iff_entry fs e.1).mpr ⟨e.2, by simpa using he⟩

/-! ### Path-string lemmas -/

theorem dataStarts_iff : ∀ (pre l : List Char),
    dataStarts pre l = true ↔ ∃ r, l = pre ++ r := by
  intro pre
  induction pre with
  | nil => intro l; simp [dataStarts]
  | cons a as ih =>
    intro l
    cases l with
    | nil =>
      simp only [dataStarts, List.cons_append]
      constructor
      · intro h; exact absurd h (by simp)
      · rintro ⟨r, hr⟩; exact absurd hr (by simp)
    | cons b bs =>
      rw [show dataStarts (a :: as) (b :: bs) = ((a == b) && dataStarts as bs) from rfl]
      constructor
      · intro h
        obtain ⟨hab, hrest⟩ := Bool.and_eq_true_iff.mp h
        obtain ⟨r, hr⟩ := (ih bs).mp hrest
        exact ⟨r, by rw [List.cons_append, hr, eq_of_beq hab]⟩
      · rintro ⟨r, hr⟩
        rw [List.cons_append] at hr
        injection hr with h1 h2
        rw [Bool.and_eq_true_iff]
        exact ⟨by simp [h1], (ih bs).mpr ⟨r, h2⟩⟩

theorem isUnderB_iff (t p : Path) : isUnderB t p = true ↔ underDir t p := by
  unfold isUnderB underDir
  rw [dataStarts_iff]
  constructor
  · rintro ⟨r, hr⟩
    refine ⟨String.mk r, String.ext ?_⟩
    rw [hr]
    rfl
  · rintro ⟨s, rfl⟩
    exact ⟨s.data, rfl⟩

theorem underDir_append (t : Path) (x : String) : underDir t (t ++ "/" ++ x) := ⟨x, rfl⟩

theorem append_slash_inj (t : Path) {x y : String} (h : t ++ "/" ++ x = t ++ "/" ++ y) :
    x = y := by
  apply String.ext
  have hd : (t ++ "/").data ++ x.data = (t ++ "/").data ++ y.data := by
    have := congrArg String.data h
    simpa using this
  exact List.append_cancel_left hd

theorem not_underDir_ne (t p q : Path) (hp : ¬ underDir t p) (hq : underDir t q) :
    p ≠ q := fun h => hp (h ▸ hq)

/-! ### Decimal counter rendering -/

def ofDigitsRev : List Nat → Nat
  | [] => 0
  | d :: ds => d + 10 * ofDigitsRev ds

theorem ofDigitsRev_digitsRev : ∀ (f n : Nat), n ≤ f →
    ofDigitsRev (digitsRev f n) = n := by
  intro f
  induction f with
  | zero => intro n h; interval_cases n; rfl
  | succ f ih =>
    intro n h
    by_cases hn : n = 0
    · subst hn; simp [digitsRev, ofDigitsRev]
    · rw [digitsRev, if_neg hn, ofDigitsRev]
      have hdiv : n / 10 ≤ f := by
        have : n / 10 < n := Nat.div_lt_self (Nat.pos_of_ne_zero hn) (by omega)
        omega
      rw [ih (n / 10) hdiv]
      omega

theorem digitsRev_lt_ten : ∀ (f n : Nat), ∀ d ∈ digitsRev f n, d < 10 := by
  intro f
  induction f with
  | zero => intro n d hd; simp [digitsRev] at hd
  | succ f ih =>
    intro n d hd
    by_cases hn : n = 0
    · rw [digitsRev, if_pos hn] at hd; simp at hd
    · rw [digitsRev, if_neg hn] at hd
      rcases List.mem_cons.mp hd with rfl | hd'
      · omega
      · exact ih (n / 10) d hd'

theorem map_digitChar_inj : ∀ (l₁ l₂ : List Nat),
    (∀ d ∈ l₁, d < 10) → (∀ d ∈ l₂, d < 10) →
    l₁.map digitChar = l₂.map digitChar → l₁ = l₂ := by
  have hinj : ∀ a < 10, ∀ b < 10, digitChar a = digitChar b → a = b := by decide
  intro l₁
  induction l₁ with
  | nil =>
    intro l₂ _ _ h
    cases l₂ with
    | nil => rfl
    | cons b bs => simp at h
  | cons a as ih =>
    intro l₂ h₁ h₂ h
    cases l₂ with
    | nil => simp at h
    | cons b bs =>
      simp only [List.map_cons, List.cons.injEq] at h
      have ha := h₁ a (List.mem_cons_self _ _)
      have hb := h₂ b (List.mem_cons_self _ _)
      rw [hinj a ha b hb h.1,
        ih bs (fun d hd => h₁ d (List.mem_cons_of_mem _ hd))
          (fun d hd => h₂ d (List.mem_cons_of_mem _ hd)) h.2]

theorem dictInsert_append (m : List (Path × Path)) (k v : Path)
    (h : ∀ e ∈ m, e.1 ≠ k) : dictInsert k v m = m ++ [(k, v)] := by
  induction m with
  | nil => rfl
  | cons e m ih =>
    obtain ⟨k1, v1⟩ := e
    rw [dictInsert, if_neg (h (k1, v1) (List.mem_cons_self _ _)),
      ih (fun e he => h e (List.mem_cons_of_mem _ he)), List.cons_append]

theorem natStr_inj (m n : Nat) (hm : 0 < m) (hn : 0 < n)
    (h : natStr m = natStr n) : m = n := by
  rw [natStr, natStr, if_neg (by omega), if_neg (by omega)] at h
  have hdata : ((digitsRev m m).reverse).map digitChar =
      ((digitsRev n n).reverse).map digitChar := congrArg String.data h
  have heq := map_digitChar_inj _ _
    (fun d hd => digitsRev_lt_ten m m d (List.mem_reverse.mp hd))
    (fun d hd => digitsRev_lt_ten n n d (List.mem_reverse.mp hd)) hdata
  have hrev : digitsRev m m = digitsRev n n := List.reverse_injective heq
  have h1 := ofDigitsRev_digitsRev m m (le_refl m)
  have h2 := ofDigitsRev_digitsRev n n (le_refl n)
  rw [← h1, ← h2, hrev]

/-! ### Freshness of chosen trash destinations -/

theorem freshLoop_mk (fs : FS) (mk : Nat → Path) :
    ∀ (f k : Nat), ∃ j, k ≤ j ∧ freshLoop fs mk f k = mk j := by
  intro f
  induction f with
  | zero => intro k; exact ⟨k, le_refl k, rfl⟩
  | succ f ih =>
    intro k
    rw [freshLoop]
    by_cases h : occupied fs (mk k) = true
    · rw [if_pos h]
      obtain ⟨j, hj1, hj2⟩ := ih (k + 1)
      exact ⟨j, by omega, hj2⟩
    · rw [if_neg h]
      exact ⟨k, le_refl k, rfl⟩

theorem freshLoop_free (fs : FS) (mk : Nat → Path) :
    ∀ (f k : Nat), (∃ j, k ≤ j ∧ j < k + f ∧ occupied fs (mk j) = false) →
      occupied fs (freshLoop fs mk f k) = false := by
  intro f
  induction f with
  | zero =>
    rintro k ⟨j, h1, h2, _⟩
    omega
  | succ f ih =>
    rintro k ⟨j, h1, h2, h3⟩
    rw [freshLoop]
    by_cases h : occupied fs (mk k) = true
    · rw [if_pos h]
      apply ih (k + 1)
      have hjk : j ≠ k := by
        intro he
        rw [he, h] at h3
        cases h3
      exact ⟨j, by omega, by omega, h3⟩
    · rw [if_neg h]
      simpa using h

theorem exists_free_cand (fs : FS) (mk : Nat → Path)
    (hinj : ∀ i j, 1 ≤ i → 1 ≤ j → mk i = mk j → i = j) :
    ∃ j, 1 ≤ j ∧ j < 1 + (fs.length + 1) ∧ occupied fs (mk j) = false := by
  by_contra hno
  push_neg at hno
  have hocc : ∀ j, 1 ≤ j → j < 1 + (fs.length + 1) → occupied fs (mk j) = true := by
    intro j h1 h2
    have := hno j h1 h2
    revert this
    cases occupied fs (mk j) <;> simp
  have hnd : ((List.range' 1 (fs.length + 1)).map mk).Nodup := by
    apply List.Nodup.map_on
    · intro i hi j hj he
      exact hinj i j (List.mem_range'_1.mp hi).1 (List.mem_range'_1.mp hj).1 he
    · exact List.nodup_range' 1 (fs.length + 1)
  have hsub : ∀ x ∈ (List.range' 1 (fs.length + 1)).map mk, x ∈ fs.map Prod.fst := by
    intro x hx
    obtain ⟨j, hj, rfl⟩ := List.mem_map.mp hx
    have hj1 := (List.mem_range'_1.mp hj).1
    have hj2 := (List.mem_range'_1.mp hj).2
    obtain ⟨c, hc⟩ := (occupied_iff_entry fs (mk j)).mp (hocc j hj1 (by omega))
    exact List.mem_map.mpr ⟨(mk j, c), hc, rfl⟩
  have hlen1 : ((List.range' 1 (fs.length + 1)).map mk).length = fs.length + 1 := by
    simp
  have hcard1 := List.toFinset_card_of_nodup hnd
  have hcard2 : ((List.range' 1 (fs.length + 1)).map mk).toFinset ⊆
      (fs.map Prod.fst).toFinset := by
    intro x hx
    rw [List.mem_toFinset] at hx ⊢
    exact hsub x hx
  have hcard3 := Finset.card_le_card hcard2
  have hcard4 := List.toFinset_card_le (l := fs.map Prod.fst)
  have hlen2 : (fs.map Prod.fst).length = fs.length := by simp
  omega

theorem candDest_inj (t p : Path) :
    ∀ i j, 1 ≤ i → 1 ≤ j → candDest t p i = candDest t p j → i = j := by
  intro i j hi hj h
  have h1 := append_slash_inj t h
  have h2 := congrArg String.data h1
  simp only [String.data_append] at h2
  have h3 := List.append_cancel_right h2
  have h4 := List.append_cancel_left h3
  exact natStr_inj i j hi hj (String.ext h4)

theorem freshDest_shape (fs : FS) (t p : Path) :
    freshDest fs t p = baseDest t p ∨
      ∃ k, 1 ≤ k ∧ freshDest fs t p = candDest t p k := by
  rw [freshDest]
  by_cases h : occupied fs (baseDest t p) = true
  · rw [if_pos h]
    obtain ⟨j, hj1, hj2⟩ := freshLoop_mk fs (candDest t p) (fs.length + 1) 1
    exact Or.inr ⟨j, hj1, hj2⟩
  · rw [if_neg h]
    exact Or.inl rfl

theorem underDir_freshDest (fs : FS) (t p : Path) : underDir t (freshDest fs t p) := by
  rcases freshDest_shape fs t p with h | ⟨k, _, h⟩ <;> rw [h]
  · exact ⟨nameOf p, rfl⟩
  · exact ⟨_, rfl⟩

theorem freshDest_free (fs : FS) (t p : Path) :
    occupied fs (freshDest fs t p) = false := by
  rw [freshDest]
  by_cases h : occupied fs (baseDest t p) = true
  · rw [if_pos h]
    apply freshLoop_free
    obtain ⟨j, hj1, hj2, hj3⟩ := exists_free_cand fs (candDest t p) (candDest_inj t p)
    exact ⟨j, hj1, by omega, hj3⟩
  · rw [if_neg h]
    simpa using h

theorem baseDest_ne_manifestPath (t p : Path) (h : nameOf p ≠ "manifest.json") :
    baseDest t p ≠ manifestPath t := fun hc => h (append_slash_inj t hc)

theorem candDest_ne_manifestPath (t p : Path) (k : Nat) :
    candDest t p k ≠ manifestPath t := by
  intro hc
  have h1 := append_slash_inj t hc
  have h2 : '_' ∈ ((splitExt (nameOf p)).1 ++ "_" ++ natStr k ++
      (splitExt (nameOf p)).2).data := by
    simp only [String.data_append]
    apply List.mem_append.mpr
    left
    apply List.mem_append.mpr
    left
    apply List.mem_append.mpr
    right
    decide
  rw [h1] at h2
  have h3 : '_' ∉ "manifest.json".data := by decide
  exact h3 h2

theorem freshDest_ne_manifestPath (fs : FS) (t p : Path)
    (h : nameOf p ≠ "manifest.json") : freshDest fs t p ≠ manifestPath t := by
  rcases freshDest_shape fs t p with he | ⟨k, _, he⟩ <;> rw [he]
  · exact baseDest_ne_manifestPath t p h
  · exact candDest_ne_manifestPath t p k

theorem dropWhile_head_false (f : Char → Bool) :
    ∀ (l : List Char) (c : Char) (rest : List Char),
      l.dropWhile f = c :: rest → f c = false := by
  intro l
  induction l with
  | nil => intro c rest h; cases h
  | cons a l ih =>
    intro c rest h
    rw [List.dropWhile_cons] at h
    by_cases hf : f a = true
    · rw [if_pos hf] at h
      exact ih c rest h
    · rw [if_neg hf] at h
      injection h with h1 _
      rw [← h1]
      cases hb : f a
      · rfl
      · exact absurd hb hf

/-- The stem and the suffix recombine to the full name, exactly as in
`pathlib` (`name == stem + suffix`). -/
theorem splitExt_append (n : String) : (splitExt n).1 ++ (splitExt n).2 = n := by
  rw [splitExt]
  split
  · exact String.append_empty n
  · rename_i c rest hdp
    split
    · exact String.append_empty n
    · have hsplit := List.takeWhile_append_dropWhile (l := n.data.reverse)
        (p := fun c => !(c == '.'))
      rw [hdp] at hsplit
      have hcdot : c = '.' := by
        have hfalse : (!(c == '.')) = false :=
          dropWhile_head_false (fun c => !(c == '.')) n.data.reverse c rest hdp
        have hc2 : (c == '.') = true := by
          cases hb : (c == '.')
          · rw [hb] at hfalse; cases hfalse
          · rfl
        exact eq_of_beq hc2
      apply String.ext
      show rest.reverse ++ ('.' :: (n.data.reverse.takeWhile (fun c => !(c == '.'))).reverse)
        = n.data
      have h5 := congrArg List.reverse hsplit
      rw [List.reverse_reverse] at h5
      refine Eq.trans ?_ h5
      rw [List.reverse_append, List.reverse_cons, hcdot, List.append_assoc]
      rfl

theorem candDest_ne_baseDest (t p : Path) (k : Nat) :
    candDest t p k ≠ baseDest t p := by
  intro h
  have h1 := append_slash_inj t h
  have h2 := splitExt_append (nameOf p)
  have h12 : (splitExt (nameOf p)).1 ++ "_" ++ natStr k ++ (splitExt (nameOf p)).2 =
      (splitExt (nameOf p)).1 ++ (splitExt (nameOf p)).2 := h1.trans h2.symm
  have h3 := congrArg (fun s : String => s.data.length) h12
  simp only [String.data_append, List.length_append] at h3
  have h4 : ("_" : String).data.length = 1 := rfl
  have h5 : (['_'] : List Char).length = 1 := rfl
  omega

/-! ### Bridges between entry-level and lookup-level statements -/

/-- No failure: every `shutil.move` succeeds. -/
def noFail : Path → Bool := fun _ => false

theorem all_not_under_lookup (fs : FS) (t : Path)
    (h : fs.all (fun e => !(isUnderB t e.1)) = true) :
    ∀ q, underDir t q → fsLookup fs q = none := by
  intro q hq
  cases hl : fsLookup fs q with
  | none => rfl
  | some c =>
    have hocc : occupied fs q = true := by unfold occupied; rw [hl]; rfl
    obtain ⟨c1, hc⟩ := (occupied_iff_entry fs q).mp hocc
    have hall := List.all_eq_true.mp h (q, c1) hc
    rw [show isUnderB t (q, c1).1 = true from (isUnderB_iff t q).mpr hq] at hall
    cases hall

theorem any_under_eq_false (fs : FS) (t : Path)
    (h : ∀ q, underDir t q → fsLookup fs q = none) :
    fs.any (fun e => isUnderB t e.1) = false := by
  rw [List.any_eq_false]
  intro e he
  cases hu : isUnderB t e.1 with
  | false => simp
  | true =>
    have h1 := occupied_of_entry fs e he
    have h2 := h e.1 ((isUnderB_iff t e.1).mp hu)
    unfold occupied at h1
    rw [h2] at h1
    cases h1

/-! ### Step equations for the remove loop -/

theorem removeLoop_cons_move (t : Path) (fails : Path → Bool) (p : Path) (rest : List Path)
    (s : St) (moved : Nat) (ho : occupied s.fs p = true) (hf : fails p = false) :
    removeLoop t fails (p :: rest) s moved =
      ⟨(removeLoop t fails rest
          (St.mk (fsMove s.fs p (freshDest s.fs t p)) s.trashExists
            (dictInsert p (freshDest s.fs t p) s.mani)) (moved + 1)).st,
        (removeLoop t fails rest
          (St.mk (fsMove s.fs p (freshDest s.fs t p)) s.trashExists
            (dictInsert p (freshDest s.fs t p) s.mani)) (moved + 1)).moved,
        Ev.move p (freshDest s.fs t p) :: (removeLoop t fails rest
          (St.mk (fsMove s.fs p (freshDest s.fs t p)) s.trashExists
            (dictInsert p (freshDest s.fs t p) s.mani)) (moved + 1)).tr,
        (removeLoop t fails rest
          (St.mk (fsMove s.fs p (freshDest s.fs t p)) s.trashExists
            (dictInsert p (freshDest s.fs t p) s.mani)) (moved + 1)).ok⟩ := by
  rw [removeLoop, if_pos ho, if_neg (by rw [hf]; exact Bool.false_ne_true)]

theorem removeLoop_cons_move_to (t : Path) (fails : Path → Bool) (p : Path)
    (rest : List Path) (s : St) (moved : Nat) (d : Path) (out : RemLoopOut)
    (ho : occupied s.fs p = true) (hf : fails p = false)
    (hd : freshDest s.fs t p = d)
    (hrec : removeLoop t fails rest
      (St.mk (fsMove s.fs p d) s.trashExists (dictInsert p d s.mani)) (moved + 1) = out) :
    removeLoop t fails (p :: rest) s moved =
      ⟨out.st, out.moved, Ev.move p d :: out.tr, out.ok⟩ := by
  rw [removeLoop_cons_move t fails p rest s moved ho hf, hd, hrec]

theorem removeLoop_cons_skip (t : Path) (fails : Path → Bool) (p : Path) (rest : List Path)
    (s : St) (moved : Nat) (ho : occupied s.fs p = false) :
    removeLoop t fails (p :: rest) s moved = removeLoop t fails rest s moved := by
  rw [removeLoop, if_neg (by rw [ho]; exact Bool.false_ne_true)]

theorem removeLoop_cons_fail (t : Path) (fails : Path → Bool) (p : Path) (rest : List Path)
    (s : St) (moved : Nat) (ho : occupied s.fs p = true) (hf : fails p = true) :
    removeLoop t fails (p :: rest) s moved = ⟨s, moved, [], false⟩ := by
  rw [removeLoop, if_pos ho, if_pos hf]

/-! ### The remove loop on a healthy batch -/

/-- Characterization of `removeLoop` over a batch of distinct existing source
files that lie outside the trash directory and are not named `manifest.json`,
when no move fails: every file is moved to a fresh destination inside the
trash directory, the manifest gains exactly the corresponding entries, and the
rest of the filesystem is untouched. -/
theorem removeLoop_ok (t : Path) :
    ∀ (files : List Path) (s : St) (moved : Nat),
      files.Nodup →
      (∀ p ∈ files, occupied s.fs p = true) →
      (∀ p ∈ files, ¬ underDir t p) →
      (∀ p ∈ files, nameOf p ≠ "manifest.json") →
      (∀ p ∈ files, ∀ e ∈ s.mani, e.1 ≠ p) →
      ∃ ds : List Path,
        ds.length = files.length ∧
        ds.Nodup ∧
        (∀ d ∈ ds, underDir t d ∧ occupied s.fs d = false ∧ d ≠ manifestPath t) ∧
        (removeLoop t noFail files s moved).ok = true ∧
        (removeLoop t noFail files s moved).moved = moved + files.length ∧
        (removeLoop t noFail files s moved).st.trashExists = s.trashExists ∧
        (removeLoop t noFail files s moved).st.mani = s.mani ++ files.zip ds ∧
        (∀ p ∈ files, fsLookup (removeLoop t noFail files s moved).st.fs p = none) ∧
        (∀ e ∈ files.zip ds,
          fsLookup (removeLoop t noFail files s moved).st.fs e.2 = fsLookup s.fs e.1) ∧
        (∀ q, q ∉ files → q ∉ ds →
          fsLookup (removeLoop t noFail files s moved).st.fs q = fsLookup s.fs q) := by
  intro files
  induction files with
  | nil =>
    intro s moved _ _ _ _ _
    refine ⟨[], rfl, List.nodup_nil, by simp, ?_⟩
    rw [removeLoop]
    refine ⟨rfl, by simp, rfl, by simp, by simp, by simp, fun q _ _ => rfl⟩
  | cons p rest ih =>
    intro s moved hnd hocc hund hname hkeys
    have hpnr : p ∉ rest := (List.nodup_cons.mp hnd).1
    have hndr : rest.Nodup := (List.nodup_cons.mp hnd).2
    have hoccp : occupied s.fs p = true := hocc p (List.mem_cons_self _ _)
    obtain ⟨c, hc⟩ : ∃ c, fsLookup s.fs p = some c := by
      unfold occupied at hoccp
      exact Option.isSome_iff_exists.mp hoccp
    have hundp : ¬ underDir t p := hund p (List.mem_cons_self _ _)
    have hfree : occupied s.fs (freshDest s.fs t p) = false := freshDest_free s.fs t p
    have hdund : underDir t (freshDest s.fs t p) := underDir_freshDest s.fs t p
    have hdne : freshDest s.fs t p ≠ manifestPath t :=
      freshDest_ne_manifestPath s.fs t p (hname p (List.mem_cons_self _ _))
    have hpd : p ≠ freshDest s.fs t p := not_underDir_ne t p _ hundp hdund
    have hfreelook : fsLookup s.fs (freshDest s.fs t p) = none := by
      unfold occupied at hfree
      exact Option.not_isSome_iff_eq_none.mp (by rw [hfree]; simp)
    set dst := freshDest s.fs t p with hdst
    set s1 : St := { s with fs := fsMove s.fs p dst, mani := dictInsert p dst s.mani }
      with hs1
    have hs1mani : s1.mani = s.mani ++ [(p, dst)] :=
      dictInsert_append s.mani p dst (fun e he => hkeys p (List.mem_cons_self _ _) e he)
    have hs1look : ∀ q, q ≠ p → q ≠ dst → fsLookup s1.fs q = fsLookup s.fs q := by
      intro q h1 h2
      exact fsLookup_fsMove_other s.fs p dst q h1 h2
    have hs1dst : fsLookup s1.fs dst = some c := fsLookup_fsMove_dst s.fs p dst c hc
    have hs1p : fsLookup s1.fs p = none := fsLookup_fsMove_src s.fs p dst c hc hpd
    have ihr := ih s1 (moved + 1) hndr
      (by
        intro q hq
        have h1 : q ≠ p := fun he => hpnr (he ▸ hq)
        have h2 : q ≠ dst := not_underDir_ne t q dst (hund q (List.mem_cons_of_mem _ hq)) hdund
        unfold occupied
        rw [hs1look q h1 h2]
        exact hocc q (List.mem_cons_of_mem _ hq))
      (fun q hq => hund q (List.mem_cons_of_mem _ hq))
      (fun q hq => hname q (List.mem_cons_of_mem _ hq))
      (by
        intro q hq e he
        rw [hs1mani] at he
        rcases List.mem_append.mp he with he1 | he2
        · exact hkeys q (List.mem_cons_of_mem _ hq) e he1
        · rw [List.mem_singleton.mp he2]
          exact fun hx => hpnr (by rw [show p = q from hx]; exact hq))
    obtain ⟨ds1, hlen, hdsnd, hdsfact, hok, hmoved, hte, hmani, herased, hpairs, hother⟩ := ihr
    have hdstnds : dst ∉ ds1 := by
      intro hmem
      have := (hdsfact dst hmem).2.1
      unfold occupied at this
      rw [hs1dst] at this
      cases this
    have hstep : removeLoop t noFail (p :: rest) s moved =
        ⟨(removeLoop t noFail rest s1 (moved + 1)).st,
         (removeLoop t noFail rest s1 (moved + 1)).moved,
         Ev.move p dst :: (removeLoop t noFail rest s1 (moved + 1)).tr,
         (removeLoop t noFail rest s1 (moved + 1)).ok⟩ := by
      rw [removeLoop, if_pos hoccp, if_neg (by simp [noFail])]
    have hdsrest_under : ∀ d ∈ ds1, underDir t d := fun d hd => (hdsfact d hd).1
    refine ⟨dst :: ds1, by simp [hlen], List.nodup_cons.mpr ⟨hdstnds, hdsnd⟩, ?_, ?_⟩
    · intro d hd
      rcases List.mem_cons.mp hd with rfl | hd1
      · exact ⟨hdund, hfree, hdne⟩
      · obtain ⟨hu, ho, hm⟩ := hdsfact d hd1
        refine ⟨hu, ?_, hm⟩
        have hd1p : d ≠ p := (not_underDir_ne t p d hundp hu).symm
        have hd1dst : d ≠ dst := fun he => hdstnds (he ▸ hd1)
        unfold occupied at ho ⊢
        rw [← hs1look d hd1p hd1dst]
        exact ho
    · rw [hstep]
      refine ⟨hok, by simp only [hmoved, List.length_cons]; omega, hte.trans rfl, ?_, ?_, ?_, ?_⟩
      · rw [hmani, hs1mani, List.zip_cons_cons, List.append_assoc]
        rfl
      · intro q hq
        rcases List.mem_cons.mp hq with rfl | hq1
        · have h1 : q ∉ rest := hpnr
          have h2 : q ∉ ds1 := fun hm => hundp (hdsrest_under q hm)
          rw [hother q h1 h2]
          exact hs1p
        · exact herased q hq1
      · intro e he
        rw [List.zip_cons_cons] at he
        rcases List.mem_cons.mp he with rfl | he1
        · have h1 : dst ∉ rest := fun hm => (hund dst (List.mem_cons_of_mem _ hm)) hdund
          rw [hother dst h1 hdstnds, hs1dst, hc]
        · have hmem := List.of_mem_zip he1
          have h1 : e.1 ≠ p := fun hx => hpnr (hx ▸ hmem.1)
          have h2 : e.1 ≠ dst :=
            not_underDir_ne t e.1 dst (hund e.1 (List.mem_cons_of_mem _ hmem.1)) hdund
          rw [hpairs e he1, hs1look e.1 h1 h2]
      · intro q hq1 hq2
        have hq3 : q ∉ rest := fun hm => hq1 (List.mem_cons_of_mem _ hm)
        have hq4 : q ∉ ds1 := fun hm => hq2 (List.mem_cons_of_mem _ hm)
        have hq5 : q ≠ p := fun he => hq1 (he ▸ List.mem_cons_self p rest)
        have hq6 : q ≠ dst := fun he => hq2 (he ▸ List.mem_cons_self dst ds1)
        rw [hother q hq3 hq4, hs1look q hq5 hq6]

/-! ### The undo loop on a healthy manifest -/

theorem mem_zip_of_mem_left :
    ∀ (l1 l2 : List Path), l1.length = l2.length → ∀ p ∈ l1, ∃ d, (p, d) ∈ l1.zip l2 := by
  intro l1
  induction l1 with
  | nil => intro l2 _ p hp; cases hp
  | cons a l1 ih =>
    intro l2 hlen p hp
    cases l2 with
    | nil => cases hlen
    | cons b l2 =>
      rcases List.mem_cons.mp hp with rfl | hp1
      · exact ⟨b, List.mem_cons_self _ _⟩
      · obtain ⟨d, hd⟩ := ih l2 (by simpa using hlen) p hp1
        exact ⟨d, List.mem_cons_of_mem _ hd⟩

/-- Characterization of `undoLoop` when every manifest entry's quarantine file
exists, destinations are pairwise distinct, original paths are pairwise
distinct, no original path coincides with a destination, and no move fails:
every entry is restored, every quarantine path is freed, and the rest of the
filesystem is untouched. -/
theorem undoLoop_ok :
    ∀ (M : List (Path × Path)) (fs : FS) (r : Nat),
      (M.map Prod.fst).Nodup →
      (M.map Prod.snd).Nodup →
      (∀ e ∈ M, occupied fs e.2 = true) →
      (∀ e ∈ M, ∀ f ∈ M, e.1 ≠ f.2) →
      (undoLoop noFail M fs r).ok = true ∧
      (undoLoop noFail M fs r).restored = r + M.length ∧
      (∀ e ∈ M, fsLookup (undoLoop noFail M fs r).fs e.1 = fsLookup fs e.2) ∧
      (∀ e ∈ M, fsLookup (undoLoop noFail M fs r).fs e.2 = none) ∧
      (∀ q, (∀ e ∈ M, q ≠ e.1 ∧ q ≠ e.2) →
        fsLookup (undoLoop noFail M fs r).fs q = fsLookup fs q) := by
  intro M
  induction M with
  | nil =>
    intro fs r _ _ _ _
    rw [undoLoop]
    exact ⟨rfl, by simp, by simp, by simp, fun q _ => rfl⟩
  | cons e0 rest ih =>
    obtain ⟨p, d⟩ := e0
    intro fs r hknd hvnd hocc hdisj
    have hoccd : occupied fs d = true := hocc (p, d) (List.mem_cons_self _ _)
    obtain ⟨c, hc⟩ : ∃ c, fsLookup fs d = some c := Option.isSome_iff_exists.mp hoccd
    have hpd : p ≠ d :=
      hdisj (p, d) (List.mem_cons_self _ _) (p, d) (List.mem_cons_self _ _)
    have hstep : undoLoop noFail ((p, d) :: rest) fs r =
        undoLoop noFail rest (fsMove fs d p) (r + 1) := by
      rw [undoLoop, if_pos hoccd, if_neg (by simp [noFail])]
    have hf1p : fsLookup (fsMove fs d p) p = some c := fsLookup_fsMove_dst fs d p c hc
    have hf1d : fsLookup (fsMove fs d p) d = none :=
      fsLookup_fsMove_src fs d p c hc (Ne.symm hpd)
    have hf1o : ∀ q, q ≠ d → q ≠ p → fsLookup (fsMove fs d p) q = fsLookup fs q :=
      fun q h1 h2 => fsLookup_fsMove_other fs d p q h1 h2
    have hrest2d : ∀ e ∈ rest, e.2 ≠ d := by
      intro e he hx
      have hmap : ((p, d) :: rest).map Prod.snd = d :: rest.map Prod.snd := rfl
      rw [hmap] at hvnd
      exact (List.nodup_cons.mp hvnd).1 (hx ▸ List.mem_map.mpr ⟨e, he, rfl⟩)
    have hrest2p : ∀ e ∈ rest, e.2 ≠ p := by
      intro e he
      exact Ne.symm (hdisj (p, d) (List.mem_cons_self _ _) e (List.mem_cons_of_mem _ he))
    have hrest1p : ∀ e ∈ rest, e.1 ≠ p := by
      intro e he hx
      have hmap : ((p, d) :: rest).map Prod.fst = p :: rest.map Prod.fst := rfl
      rw [hmap] at hknd
      exact (List.nodup_cons.mp hknd).1 (hx ▸ List.mem_map.mpr ⟨e, he, rfl⟩)
    have hrest1d : ∀ e ∈ rest, e.1 ≠ d := by
      intro e he
      exact hdisj e (List.mem_cons_of_mem _ he) (p, d) (List.mem_cons_self _ _)
    have hknd1 : (rest.map Prod.fst).Nodup := by
      have hmap : ((p, d) :: rest).map Prod.fst = p :: rest.map Prod.fst := rfl
      rw [hmap] at hknd
      exact (List.nodup_cons.mp hknd).2
    have hvnd1 : (rest.map Prod.snd).Nodup := by
      have hmap : ((p, d) :: rest).map Prod.snd = d :: rest.map Prod.snd := rfl
      rw [hmap] at hvnd
      exact (List.nodup_cons.mp hvnd).2
    have hoccrest : ∀ e ∈ rest, occupied (fsMove fs d p) e.2 = true := by
      intro e he
      unfold occupied
      rw [hf1o e.2 (hrest2d e he) (hrest2p e he)]
      exact hocc e (List.mem_cons_of_mem _ he)
    have hdisj1 : ∀ e ∈ rest, ∀ f ∈ rest, e.1 ≠ f.2 := fun e he f hf =>
      hdisj e (List.mem_cons_of_mem _ he) f (List.mem_cons_of_mem _ hf)
    obtain ⟨hok, hres, hkey, hval, hoth⟩ := ih (fsMove fs d p) (r + 1) hknd1 hvnd1 hoccrest hdisj1
    rw [hstep]
    refine ⟨hok, by rw [hres, List.length_cons]; omega, ?_, ?_, ?_⟩
    · intro e he
      rcases List.mem_cons.mp he with rfl | he1
      · have h1 : ∀ f ∈ rest, (p, d).1 ≠ f.1 ∧ (p, d).1 ≠ f.2 := fun f hf =>
          ⟨Ne.symm (hrest1p f hf), hdisj (p, d) (List.mem_cons_self _ _) f (List.mem_cons_of_mem _ hf)⟩
        rw [hoth (p, d).1 h1, hf1p, hc]
      · rw [hkey e he1]
        exact hf1o e.2 (hrest2d e he1) (hrest2p e he1)
    · intro e he
      rcases List.mem_cons.mp he with rfl | he1
      · have h1 : ∀ f ∈ rest, (p, d).2 ≠ f.1 ∧ (p, d).2 ≠ f.2 := fun f hf =>
          ⟨Ne.symm (hrest1d f hf), Ne.symm (hrest2d f hf)⟩
        rw [hoth (p, d).2 h1]
        exact hf1d
      · exact hval e he1
    · intro q hq
      have hq1 : ∀ e ∈ rest, q ≠ e.1 ∧ q ≠ e.2 := fun e he =>
        hq e (List.mem_cons_of_mem _ he)
      have hq2 := hq (p, d) (List.mem_cons_self _ _)
      rw [hoth q hq1]
      exact hf1o q hq2.2 hq2.1

/-! ### Remove followed by Undo (C1) -/

theorem mem_zip_of_mem_right :
    ∀ (l1 l2 : List Path), l1.length = l2.length → ∀ d ∈ l2, ∃ p, (p, d) ∈ l1.zip l2 := by
  intro l1
  induction l1 with
  | nil =>
    intro l2 hlen d hd
    cases l2 with
    | nil => cases hd
    | cons b l2 => cases hlen
  | cons a l1 ih =>
    intro l2 hlen d hd
    cases l2 with
    | nil => cases hd
    | cons b l2 =>
      rcases List.mem_cons.mp hd with rfl | hd1
      · exact ⟨a, List.mem_cons_self _ _⟩
      · obtain ⟨p, hp⟩ := ih l2 (by simpa using hlen) d hd1
        exact ⟨p, List.mem_cons_of_mem _ hp⟩

theorem underDir_manifestPath (t : Path) : underDir t (manifestPath t) :=
  ⟨"manifest.json", rfl⟩

theorem not_underDir_of_isUnderB_false (t p : Path) (h : isUnderB t p = false) :
    ¬ underDir t p := by
  intro hu
  rw [(isUnderB_iff t p).mpr hu] at h
  cases h

/-- Main round-trip lemma: for a duplicate-free batch of files that all
exist, lie outside the trash directory, and none of which is named
`manifest.json`, with no prior quarantine state, `/remove` followed by
`/undo` restores every file with its original content, empties the manifest,
deletes the persisted manifest file, and removes the trash directory. -/
theorem remove_undo_restores (t : Path) (files : List Path) (s : St)
    (h1 : files.Nodup)
    (h2 : ∀ p ∈ files, occupied s.fs p = true)
    (h3 : ∀ p ∈ files, isUnderB t p = false)
    (h4 : ∀ p ∈ files, nameOf p ≠ "manifest.json")
    (h5 : s.fs.all (fun e => !(isUnderB t e.1)) = true)
    (h6 : s.mani = [])
    (p : Path) (hp : p ∈ files) :
    fsLookup (undoHandler t noFail (removeHandler t noFail files s).st).1.fs p =
      fsLookup s.fs p ∧
    (undoHandler t noFail (removeHandler t noFail files s).st).1.mani = [] ∧
    fsLookup (undoHandler t noFail (removeHandler t noFail files s).st).1.fs
      (manifestPath t) = none ∧
    (undoHandler t noFail (removeHandler t noFail files s).st).1.trashExists = false := by
  have h3' : ∀ q ∈ files, ¬ underDir t q := fun q hq =>
    not_underDir_of_isUnderB_false t q (h3 q hq)
  have hlookt : ∀ q, underDir t q → fsLookup s.fs q = none := all_not_under_lookup s.fs t h5
  obtain ⟨ds, hlen, hdsnd, hdsfact, hok, hmoved, hte, hmani, herased, hpairs, hother⟩ :=
    removeLoop_ok t files { s with trashExists := true } 0 h1 h2 h3' h4
      (by intro q hq e he; rw [show St.mani { s with trashExists := true } = s.mani from rfl,
            h6] at he; cases he)
  have hmani' : (removeLoop t noFail files { s with trashExists := true } 0).st.mani =
      files.zip ds := by
    rw [hmani, show St.mani { s with trashExists := true } = s.mani from rfl, h6,
      List.nil_append]
  have hrh : removeHandler t noFail files s =
      ⟨⟨fsWrite (removeLoop t noFail files { s with trashExists := true } 0).st.fs
            (manifestPath t) (Content.mani (files.zip ds)),
          (removeLoop t noFail files { s with trashExists := true } 0).st.trashExists,
          files.zip ds⟩,
        RmRes.ok (removeLoop t noFail files { s with trashExists := true } 0).moved t,
        Ev.mkdirTrash :: (removeLoop t noFail files { s with trashExists := true } 0).tr ++
          [Ev.writeMani (files.zip ds)]⟩ := by
    rw [← hmani']
    simp only [removeHandler]
    rw [if_pos hok]
  -- abbreviations used below
  have hmanidir := underDir_manifestPath t
  have hds_mem : ∀ d ∈ ds, underDir t d ∧ occupied s.fs d = false ∧ d ≠ manifestPath t :=
    hdsfact
  -- hypotheses of `undoLoop_ok` for the persisted state
  have hMk : ((files.zip ds).map Prod.fst).Nodup := by
    rw [List.map_fst_zip files ds (by omega)]
    exact h1
  have hMv : ((files.zip ds).map Prod.snd).Nodup := by
    rw [List.map_snd_zip files ds (by omega)]
    exact hdsnd
  have hMocc : ∀ e ∈ files.zip ds,
      occupied (fsWrite (removeLoop t noFail files { s with trashExists := true } 0).st.fs
        (manifestPath t) (Content.mani (files.zip ds))) e.2 = true := by
    intro e he
    have hmem := List.of_mem_zip he
    have hd2 := hds_mem e.2 hmem.2
    unfold occupied
    rw [fsLookup_fsWrite_ne _ _ _ _ hd2.2.2, hpairs e he]
    exact h2 e.1 hmem.1
  have hMdisj : ∀ e ∈ files.zip ds, ∀ f ∈ files.zip ds, e.1 ≠ f.2 := by
    intro e he f hf
    exact not_underDir_ne t e.1 f.2 (h3' e.1 (List.of_mem_zip he).1)
      (hds_mem f.2 (List.of_mem_zip hf).2).1
  obtain ⟨huok, hures, hukey, huval, huoth⟩ :=
    undoLoop_ok (files.zip ds)
      (fsWrite (removeLoop t noFail files { s with trashExists := true } 0).st.fs
        (manifestPath t) (Content.mani (files.zip ds))) 0
      hMk hMv hMocc hMdisj
  -- reduce the composed handler expression
  have hfull : undoHandler t noFail (removeHandler t noFail files s).st =
      ⟨⟨fsErase (undoLoop noFail (files.zip ds)
            (fsWrite (removeLoop t noFail files { s with trashExists := true } 0).st.fs
              (manifestPath t) (Content.mani (files.zip ds))) 0).fs
          (manifestPath t),
        (removeLoop t noFail files { s with trashExists := true } 0).st.trashExists &&
          (fsErase (undoLoop noFail (files.zip ds)
            (fsWrite (removeLoop t noFail files { s with trashExists := true } 0).st.fs
              (manifestPath t) (Content.mani (files.zip ds))) 0).fs
            (manifestPath t)).any (fun e => isUnderB t e.1),
        []⟩,
        UndoRes.ok (undoLoop noFail (files.zip ds)
            (fsWrite (removeLoop t noFail files { s with trashExists := true } 0).st.fs
              (manifestPath t) (Content.mani (files.zip ds))) 0).restored⟩ := by
    rw [hrh]
    show undoHandler t noFail
      ⟨fsWrite (removeLoop t noFail files { s with trashExists := true } 0).st.fs
          (manifestPath t) (Content.mani (files.zip ds)),
        (removeLoop t noFail files { s with trashExists := true } 0).st.trashExists,
        files.zip ds⟩ = _
    simp only [undoHandler]
    rw [if_pos huok]
  -- the four conclusions
  have hpne : p ≠ manifestPath t := not_underDir_ne t p _ (h3' p hp) hmanidir
  obtain ⟨d, hpd⟩ := mem_zip_of_mem_left files ds (by omega) p hp
  have hdfact := hds_mem d (List.of_mem_zip hpd).2
  refine ⟨?_, ?_, ?_, ?_⟩
  · rw [hfull]
    show fsLookup (fsErase _ (manifestPath t)) p = fsLookup s.fs p
    rw [fsLookup_fsErase_ne _ _ _ hpne]
    have h1p := hukey (p, d) hpd
    rw [show ((p, d).1 : Path) = p from rfl] at h1p
    rw [h1p]
    rw [show ((p, d).2 : Path) = d from rfl]
    rw [fsLookup_fsWrite_ne _ _ _ _ hdfact.2.2]
    have := hpairs (p, d) hpd
    rw [show ((p, d).2 : Path) = d from rfl, show ((p, d).1 : Path) = p from rfl] at this
    rw [this]
  · rw [hfull]
  · rw [hfull]
    exact fsLookup_fsErase_self _ _
  · rw [hfull]
    show ((removeLoop t noFail files { s with trashExists := true } 0).st.trashExists &&
      (fsErase (undoLoop noFail (files.zip ds)
        (fsWrite (removeLoop t noFail files { s with trashExists := true } 0).st.fs
          (manifestPath t) (Content.mani (files.zip ds))) 0).fs
        (manifestPath t)).any (fun e => isUnderB t e.1)) = false
    have hany : (fsErase (undoLoop noFail (files.zip ds)
        (fsWrite (removeLoop t noFail files { s with trashExists := true } 0).st.fs
          (manifestPath t) (Content.mani (files.zip ds))) 0).fs
        (manifestPath t)).any (fun e => isUnderB t e.1) = false := by
      apply any_under_eq_false
      intro q hq
      by_cases hqm : q = manifestPath t
      · rw [hqm]
        exact fsLookup_fsErase_self _ _
      · rw [fsLookup_fsErase_ne _ _ _ hqm]
        by_cases hqd : q ∈ ds
        · obtain ⟨p1, hp1⟩ := mem_zip_of_mem_right files ds (by omega) q hqd
          exact huval (p1, q) hp1
        · have hqf : q ∉ files := fun hm => (h3' q hm) hq
          rw [huoth q (by
            intro e he
            exact ⟨fun hx => (h3' e.1 (List.of_mem_zip he).1) (hx ▸ hq),
              fun hx => hqd (hx ▸ (List.of_mem_zip he).2)⟩)]
          rw [fsLookup_fsWrite_ne _ _ _ _ hqm, hother q hqf hqd]
          exact hlookt q hq
    rw [hany, Bool.and_false]

/-- C1 (amended): for a duplicate-free batch of files that all exist, lie
outside the trash directory, and none of which is named `manifest.json`, with
no prior quarantine state, `/remove` followed by `/undo` restores every file
to its original path with its original content, leaves the in-memory manifest
empty, deletes the persisted manifest file, and removes the (now empty) trash
directory. -/
theorem remove_undo_roundtrip (t : Path) (files : List Path) (s : St)
    (h1 : files.Nodup)
    (h2 : ∀ p ∈ files, occupied s.fs p = true)
    (h3 : ∀ p ∈ files, isUnderB t p = false)
    (h4 : ∀ p ∈ files, nameOf p ≠ "manifest.json")
    (h5 : s.fs.all (fun e => !(isUnderB t e.1)) = true)
    (h6 : s.mani = [])
    (p : Path) (hp : p ∈ files) :
    fsLookup (undoHandler t noFail (removeHandler t noFail files s).st).1.fs p =
      fsLookup s.fs p ∧
    (undoHandler t noFail (removeHandler t noFail files s).st).1.mani = [] ∧
    fsLookup (undoHandler t noFail (removeHandler t noFail files s).st).1.fs
      (manifestPath t) = none ∧
    (undoHandler t noFail (removeHandler t noFail files s).st).1.trashExists = false :=
  remove_undo_restores t files s h1 h2 h3 h4 h5 h6 p hp

/-- Counterexample to C1 as stated: a source photo literally named
`manifest.json` exists at its original path with no prior quarantine state,
yet Remove followed by Undo does not restore its content — the Remove handler
quarantines it at `TRASH_DIR/manifest.json` and then persists the manifest to
that very path, overwriting the photo, so Undo restores the manifest JSON in
place of the photo. -/
theorem remove_undo_roundtrip_cex :
    fsLookup (St.mk [("/pics/manifest.json", Content.photo 7)] false []).fs
      "/pics/manifest.json" = some (Content.photo 7) ∧
    (St.mk [("/pics/manifest.json", Content.photo 7)] false []).mani = [] ∧
    fsLookup (undoHandler "/pics/.dedup_trash" noFail
        (removeHandler "/pics/.dedup_trash" noFail ["/pics/manifest.json"]
          (St.mk [("/pics/manifest.json", Content.photo 7)] false [])).st).1.fs
      "/pics/manifest.json" ≠ some (Content.photo 7) := by
  refine ⟨rfl, rfl, ?_⟩
  decide

/-- Witness for the amended C1 at a concrete two-file batch. -/
theorem remove_undo_roundtrip_witness :
    fsLookup (undoHandler "/pics/.dedup_trash" noFail (removeHandler "/pics/.dedup_trash"
        noFail ["/pics/a.jpg", "/pics/b.jpg"]
        (St.mk [("/pics/a.jpg", Content.photo 1), ("/pics/b.jpg", Content.photo 2)]
          false [])).st).1.fs "/pics/a.jpg" =
      fsLookup (St.mk [("/pics/a.jpg", Content.photo 1), ("/pics/b.jpg", Content.photo 2)]
        false []).fs "/pics/a.jpg" ∧
    (undoHandler "/pics/.dedup_trash" noFail (removeHandler "/pics/.dedup_trash"
        noFail ["/pics/a.jpg", "/pics/b.jpg"]
        (St.mk [("/pics/a.jpg", Content.photo 1), ("/pics/b.jpg", Content.photo 2)]
          false [])).st).1.mani = [] ∧
    fsLookup (undoHandler "/pics/.dedup_trash" noFail (removeHandler "/pics/.dedup_trash"
        noFail ["/pics/a.jpg", "/pics/b.jpg"]
        (St.mk [("/pics/a.jpg", Content.photo 1), ("/pics/b.jpg", Content.photo 2)]
          false [])).st).1.fs (manifestPath "/pics/.dedup_trash") = none ∧
    (undoHandler "/pics/.dedup_trash" noFail (removeHandler "/pics/.dedup_trash"
        noFail ["/pics/a.jpg", "/pics/b.jpg"]
        (St.mk [("/pics/a.jpg", Content.photo 1), ("/pics/b.jpg", Content.photo 2)]
          false [])).st).1.trashExists = false :=
  remove_undo_roundtrip "/pics/.dedup_trash" ["/pics/a.jpg", "/pics/b.jpg"]
    (St.mk [("/pics/a.jpg", Content.photo 1), ("/pics/b.jpg", Content.photo 2)] false [])
    (by decide) (by decide) (by decide) (by decide) (by decide) rfl
    "/pics/a.jpg" (by decide)

/-! ### Empty Remove batch (C8) -/

/-- Counterexample to C8 as stated: a `/remove` request with an empty path set
is not rejected.  It returns success with count 0, creates the trash
directory, and writes the manifest file. -/
theorem remove_empty_not_rejected_cex :
    (removeHandler "/pics/.dedup_trash" noFail []
        (St.mk [("/pics/a.jpg", Content.photo 1)] false [])).res =
      RmRes.ok 0 "/pics/.dedup_trash" ∧
    (removeHandler "/pics/.dedup_trash" noFail []
        (St.mk [("/pics/a.jpg", Content.photo 1)] false [])).st.trashExists = true ∧
    fsLookup (removeHandler "/pics/.dedup_trash" noFail []
        (St.mk [("/pics/a.jpg", Content.photo 1)] false [])).st.fs
      (manifestPath "/pics/.dedup_trash") = some (Content.mani []) := by
  refine ⟨rfl, rfl, ?_⟩
  decide

/-- C8 (amended): a Remove request with an empty path set is not rejected as
invalid input; the handler performs no moves but still creates the quarantine
directory, persists the current in-memory manifest, and returns success with
count 0. -/
theorem remove_empty_batch (t : Path) (fails : Path → Bool) (s : St) :
    removeHandler t fails [] s =
      ⟨⟨fsWrite s.fs (manifestPath t) (Content.mani s.mani), true, s.mani⟩,
        RmRes.ok 0 t, [Ev.mkdirTrash, Ev.writeMani s.mani]⟩ := rfl

/-! ### A failing move aborts the batch (C4) -/

theorem removeLoop_append_fail (t : Path) (fails : Path → Bool) :
    ∀ (xs : List Path) (p : Path) (ys : List Path) (s : St) (moved : Nat),
      (∀ x ∈ xs, fails x = false) → fails p = true →
      occupied (removeLoop t fails xs s moved).st.fs p = true →
      removeLoop t fails (xs ++ p :: ys) s moved =
        ⟨(removeLoop t fails xs s moved).st, (removeLoop t fails xs s moved).moved,
          (removeLoop t fails xs s moved).tr, false⟩ := by
  intro xs
  induction xs with
  | nil =>
    intro p ys s moved _ hp hocc
    rw [List.nil_append]
    rw [show (removeLoop t fails [] s moved).st = s from rfl] at hocc
    rw [removeLoop_cons_fail t fails p ys s moved hocc hp]
    rfl
  | cons x xs ih =>
    intro p ys s moved hxs hp hocc
    have hfx : fails x = false := hxs x (List.mem_cons_self _ _)
    by_cases ho : occupied s.fs x = true
    · rw [List.cons_append, removeLoop_cons_move t fails x (xs ++ p :: ys) s moved ho hfx,
        removeLoop_cons_move t fails x xs s moved ho hfx]
      rw [removeLoop_cons_move t fails x xs s moved ho hfx] at hocc
      rw [ih p ys _ (moved + 1) (fun y hy => hxs y (List.mem_cons_of_mem _ hy)) hp hocc]
    · have ho1 : occupied s.fs x = false := by
        cases hb : occupied s.fs x
        · rfl
        · exact absurd hb ho
      rw [List.cons_append, removeLoop_cons_skip t fails x (xs ++ p :: ys) s moved ho1,
        removeLoop_cons_skip t fails x xs s moved ho1]
      rw [removeLoop_cons_skip t fails x xs s moved ho1] at hocc
      exact ih p ys s moved (fun y hy => hxs y (List.mem_cons_of_mem _ hy)) hp hocc

/-- C4 (amended): when the move of an individual file raises, the `/remove`
handler aborts the batch instead of skipping the file: files after the failing
one are not processed, the handler returns an error result rather than a
success count, the files already moved in the batch stay in quarantine (no
rollback), and the persisted manifest is not rewritten.  Only a file missing
at its source path is skipped with the batch continuing. -/
theorem remove_move_failure_aborts (t : Path) (fails : Path → Bool)
    (xs : List Path) (p : Path) (ys : List Path) (s : St)
    (hxs : ∀ x ∈ xs, fails x = false)
    (hp : fails p = true)
    (hocc : occupied (removeLoop t fails xs (St.mk s.fs true s.mani) 0).st.fs p = true) :
    removeHandler t fails (xs ++ p :: ys) s =
      ⟨(removeLoop t fails xs (St.mk s.fs true s.mani) 0).st, RmRes.err,
        Ev.mkdirTrash :: (removeLoop t fails xs (St.mk s.fs true s.mani) 0).tr⟩ := by
  have habort := removeLoop_append_fail t fails xs p ys (St.mk s.fs true s.mani) 0 hxs hp hocc
  simp only [removeHandler]
  rw [show ({ s with trashExists := true } : St) = St.mk s.fs true s.mani from rfl, habort]
  rw [if_neg (by exact Bool.false_ne_true)]

/-- Counterexample to C4 as stated: with three existing files where the second
move raises, the handler returns an error instead of a success count, the
third file is never processed, and no manifest is persisted (the first file
stays in quarantine unrecorded on disk). -/
theorem remove_partial_failure_cex :
    (removeHandler "/pics/.dedup_trash" (fun q => q == "/pics/b.jpg")
        ["/pics/a.jpg", "/pics/b.jpg", "/pics/c.jpg"]
        (St.mk [("/pics/a.jpg", Content.photo 1), ("/pics/b.jpg", Content.photo 2),
          ("/pics/c.jpg", Content.photo 3)] false [])).res = RmRes.err ∧
    fsLookup (removeHandler "/pics/.dedup_trash" (fun q => q == "/pics/b.jpg")
        ["/pics/a.jpg", "/pics/b.jpg", "/pics/c.jpg"]
        (St.mk [("/pics/a.jpg", Content.photo 1), ("/pics/b.jpg", Content.photo 2),
          ("/pics/c.jpg", Content.photo 3)] false [])).st.fs "/pics/c.jpg" =
      some (Content.photo 3) ∧
    fsLookup (removeHandler "/pics/.dedup_trash" (fun q => q == "/pics/b.jpg")
        ["/pics/a.jpg", "/pics/b.jpg", "/pics/c.jpg"]
        (St.mk [("/pics/a.jpg", Content.photo 1), ("/pics/b.jpg", Content.photo 2),
          ("/pics/c.jpg", Content.photo 3)] false [])).st.fs "/pics/b.jpg" =
      some (Content.photo 2) ∧
    fsLookup (removeHandler "/pics/.dedup_trash" (fun q => q == "/pics/b.jpg")
        ["/pics/a.jpg", "/pics/b.jpg", "/pics/c.jpg"]
        (St.mk [("/pics/a.jpg", Content.photo 1), ("/pics/b.jpg", Content.photo 2),
          ("/pics/c.jpg", Content.photo 3)] false [])).st.fs
      (manifestPath "/pics/.dedup_trash") = none ∧
    fsLookup (removeHandler "/pics/.dedup_trash" (fun q => q == "/pics/b.jpg")
        ["/pics/a.jpg", "/pics/b.jpg", "/pics/c.jpg"]
        (St.mk [("/pics/a.jpg", Content.photo 1), ("/pics/b.jpg", Content.photo 2),
          ("/pics/c.jpg", Content.photo 3)] false [])).st.fs
      "/pics/.dedup_trash/a.jpg" = some (Content.photo 1) := by
  decide

/-- Witness for the amended C4 at a concrete input. -/
theorem remove_move_failure_aborts_witness :
    removeHandler "/pics/.dedup_trash" (fun q => q == "/pics/b.jpg")
        (["/pics/a.jpg"] ++ "/pics/b.jpg" :: ["/pics/c.jpg"])
        (St.mk [("/pics/a.jpg", Content.photo 1), ("/pics/b.jpg", Content.photo 2),
          ("/pics/c.jpg", Content.photo 3)] false []) =
      ⟨(removeLoop "/pics/.dedup_trash" (fun q => q == "/pics/b.jpg") ["/pics/a.jpg"]
          (St.mk [("/pics/a.jpg", Content.photo 1), ("/pics/b.jpg", Content.photo 2),
            ("/pics/c.jpg", Content.photo 3)] true []) 0).st, RmRes.err,
        Ev.mkdirTrash :: (removeLoop "/pics/.dedup_trash" (fun q => q == "/pics/b.jpg")
          ["/pics/a.jpg"]
          (St.mk [("/pics/a.jpg", Content.photo 1), ("/pics/b.jpg", Content.photo 2),
            ("/pics/c.jpg", Content.photo 3)] true []) 0).tr⟩ :=
  remove_move_failure_aborts "/pics/.dedup_trash" (fun q => q == "/pics/b.jpg")
    ["/pics/a.jpg"] "/pics/b.jpg" ["/pics/c.jpg"]
    (St.mk [("/pics/a.jpg", Content.photo 1), ("/pics/b.jpg", Content.photo 2),
      ("/pics/c.jpg", Content.photo 3)] false [])
    (by decide) (by decide) (by decide)

/-! ### Undo clears the manifest unconditionally (C3) -/

/-- Counterexample to C3 as stated: one manifest entry whose quarantine file
is missing (only `manifest.json` is on disk).  The Undo pass restores nothing,
yet it clears the in-memory manifest, deletes the persisted manifest file, and
reports success — the entry is lost rather than retained for a retry. -/
theorem undo_drops_unrestored_cex :
    (undoHandler "/pics/.dedup_trash" noFail
        (St.mk [(manifestPath "/pics/.dedup_trash",
            Content.mani [("/pics/a.jpg", "/pics/.dedup_trash/a.jpg")])] true
          [("/pics/a.jpg", "/pics/.dedup_trash/a.jpg")])).1.mani = [] ∧
    fsLookup (undoHandler "/pics/.dedup_trash" noFail
        (St.mk [(manifestPath "/pics/.dedup_trash",
            Content.mani [("/pics/a.jpg", "/pics/.dedup_trash/a.jpg")])] true
          [("/pics/a.jpg", "/pics/.dedup_trash/a.jpg")])).1.fs
      (manifestPath "/pics/.dedup_trash") = none ∧
    (undoHandler "/pics/.dedup_trash" noFail
        (St.mk [(manifestPath "/pics/.dedup_trash",
            Content.mani [("/pics/a.jpg", "/pics/.dedup_trash/a.jpg")])] true
          [("/pics/a.jpg", "/pics/.dedup_trash/a.jpg")])).2 = UndoRes.ok 0 := by
  decide

/-- C3 (amended): when the Undo pass completes without an exception, the
in-memory manifest is cleared and the persisted manifest file is deleted
unconditionally — entries whose quarantine file was missing are silently
dropped, not retained for a later retry.  Entries are kept (all of them,
including ones already restored) only when an exception aborts the pass. -/
theorem undo_clears_or_keeps_manifest (t : Path) (fails : Path → Bool) (s : St) :
    ((undoLoop fails s.mani s.fs 0).ok = true →
      (undoHandler t fails s).1.mani = [] ∧
      fsLookup (undoHandler t fails s).1.fs (manifestPath t) = none ∧
      (undoHandler t fails s).2 = UndoRes.ok (undoLoop fails s.mani s.fs 0).restored) ∧
    ((undoLoop fails s.mani s.fs 0).ok = false →
      (undoHandler t fails s).1.mani = s.mani ∧
      (undoHandler t fails s).1.fs = (undoLoop fails s.mani s.fs 0).fs ∧
      (undoHandler t fails s).2 = UndoRes.err) := by
  constructor
  · intro h
    simp only [undoHandler]
    rw [if_pos h]
    exact ⟨rfl, fsLookup_fsErase_self _ _, rfl⟩
  · intro h
    simp only [undoHandler]
    rw [if_neg (by rw [h]; exact Bool.false_ne_true)]
    exact ⟨rfl, rfl, rfl⟩

/-- Witness for the amended C3, at the concrete state of the counterexample:
the completed pass clears the manifest and deletes the persisted file. -/
theorem undo_clears_manifest_witness :
    (undoHandler "/pics/.dedup_trash" noFail
        (St.mk [(manifestPath "/pics/.dedup_trash",
            Content.mani [("/pics/b.jpg", "/pics/.dedup_trash/b.jpg")])] true
          [("/pics/b.jpg", "/pics/.dedup_trash/b.jpg")])).1.mani = [] ∧
    fsLookup (undoHandler "/pics/.dedup_trash" noFail
        (St.mk [(manifestPath "/pics/.dedup_trash",
            Content.mani [("/pics/b.jpg", "/pics/.dedup_trash/b.jpg")])] true
          [("/pics/b.jpg", "/pics/.dedup_trash/b.jpg")])).1.fs
      (manifestPath "/pics/.dedup_trash") = none ∧
    (undoHandler "/pics/.dedup_trash" noFail
        (St.mk [(manifestPath "/pics/.dedup_trash",
            Content.mani [("/pics/b.jpg", "/pics/.dedup_trash/b.jpg")])] true
          [("/pics/b.jpg", "/pics/.dedup_trash/b.jpg")])).2 =
      UndoRes.ok (undoLoop noFail [("/pics/b.jpg", "/pics/.dedup_trash/b.jpg")]
        [(manifestPath "/pics/.dedup_trash",
          Content.mani [("/pics/b.jpg", "/pics/.dedup_trash/b.jpg")])] 0).restored :=
  (undo_clears_or_keeps_manifest "/pics/.dedup_trash" noFail
    (St.mk [(manifestPath "/pics/.dedup_trash",
        Content.mani [("/pics/b.jpg", "/pics/.dedup_trash/b.jpg")])] true
      [("/pics/b.jpg", "/pics/.dedup_trash/b.jpg")])).1 (by decide)

/-! ### The manifest is persisted only after its moves (C5) -/

theorem removeLoop_tr_moves (t : Path) (fails : Path → Bool) :
    ∀ (files : List Path) (s : St) (moved : Nat),
      ∀ ev ∈ (removeLoop t fails files s moved).tr, ∃ a b, ev = Ev.move a b := by
  intro files
  induction files with
  | nil => intro s moved ev hev; cases hev
  | cons p rest ih =>
    intro s moved ev hev
    by_cases ho : occupied s.fs p = true
    · by_cases hf : fails p = true
      · rw [removeLoop_cons_fail t fails p rest s moved ho hf] at hev
        cases hev
      · have hf1 : fails p = false := by
          cases hb : fails p
          · rfl
          · exact absurd hb hf
        rw [removeLoop_cons_move t fails p rest s moved ho hf1] at hev
        rcases List.mem_cons.mp hev with rfl | hev1
        · exact ⟨p, freshDest s.fs t p, rfl⟩
        · exact ih _ _ ev hev1
    · have ho1 : occupied s.fs p = false := by
        cases hb : occupied s.fs p
        · rfl
        · exact absurd hb ho
      rw [removeLoop_cons_skip t fails p rest s moved ho1] at hev
      exact ih s moved ev hev

theorem mem_dictInsert (k v : Path) :
    ∀ (m : List (Path × Path)), ∀ e ∈ dictInsert k v m, e ∈ m ∨ e = (k, v) := by
  intro m
  induction m with
  | nil =>
    intro e he
    exact Or.inr (List.mem_singleton.mp he)
  | cons e1 m ih =>
    obtain ⟨k1, v1⟩ := e1
    intro e he
    rw [dictInsert] at he
    by_cases hk : k1 = k
    · rw [if_pos hk] at he
      rcases List.mem_cons.mp he with rfl | he1
      · exact Or.inr (by rw [hk])
      · exact Or.inl (List.mem_cons_of_mem _ he1)
    · rw [if_neg hk] at he
      rcases List.mem_cons.mp he with rfl | he1
      · exact Or.inl (List.mem_cons_self _ _)
      · rcases ih e he1 with h | h
        · exact Or.inl (List.mem_cons_of_mem _ h)
        · exact Or.inr h

theorem removeLoop_mani_from_moves (t : Path) (fails : Path → Bool) :
    ∀ (files : List Path) (s : St) (moved : Nat),
      ∀ e ∈ (removeLoop t fails files s moved).st.mani,
        e ∈ s.mani ∨ Ev.move e.1 e.2 ∈ (removeLoop t fails files s moved).tr := by
  intro files
  induction files with
  | nil => intro s moved e he; exact Or.inl he
  | cons p rest ih =>
    intro s moved e he
    by_cases ho : occupied s.fs p = true
    · by_cases hf : fails p = true
      · rw [removeLoop_cons_fail t fails p rest s moved ho hf] at he ⊢
        exact Or.inl he
      · have hf1 : fails p = false := by
          cases hb : fails p
          · rfl
          · exact absurd hb hf
        rw [removeLoop_cons_move t fails p rest s moved ho hf1] at he ⊢
        rcases ih _ (moved + 1) e he with h1 | h1
        · rcases mem_dictInsert p (freshDest s.fs t p) s.mani e h1 with h2 | h2
          · exact Or.inl h2
          · refine Or.inr ?_
            rw [h2]
            exact List.mem_cons_self _ _
        · exact Or.inr (List.mem_cons_of_mem _ h1)
    · have ho1 : occupied s.fs p = false := by
        cases hb : occupied s.fs p
        · rfl
        · exact absurd hb ho
      rw [removeLoop_cons_skip t fails p rest s moved ho1] at he ⊢
      exact ih s moved e he

theorem write_unique :
    ∀ (A : List Ev), (∀ ev ∈ A, ∀ m1, ev ≠ Ev.writeMani m1) →
      ∀ (M : List (Path × Path)) (pre suf : List Ev) (m : List (Path × Path)),
        A ++ [Ev.writeMani M] = pre ++ Ev.writeMani m :: suf →
        pre = A ∧ m = M ∧ suf = [] := by
  intro A
  induction A with
  | nil =>
    intro _ M pre suf m h
    rw [List.nil_append] at h
    cases pre with
    | nil =>
      rw [List.nil_append] at h
      injection h with h1 h2
      injection h1 with h1
      exact ⟨rfl, h1.symm, h2.symm⟩
    | cons q pre1 =>
      rw [List.cons_append] at h
      injection h with h1 h2
      exact absurd h2.symm (by simp)
  | cons a A ih =>
    intro hA M pre suf m h
    cases pre with
    | nil =>
      rw [List.nil_append] at h
      rw [List.cons_append] at h
      injection h with h1 h2
      exact absurd h1 (hA a (List.mem_cons_self _ _) m)
    | cons q pre1 =>
      rw [List.cons_append, List.cons_append] at h
      injection h with h1 h2
      obtain ⟨hp, hm, hs⟩ := ih (fun ev hev => hA ev (List.mem_cons_of_mem _ hev)) M pre1 suf m h2
      exact ⟨by rw [hp, h1], hm, hs⟩

/-- C5: within one execution of the `/remove` handler, the persisted manifest
is written only after every move it records: whenever the handler's event
trace splits as `pre ++ [writeMani m] ++ suf`, every entry of `m` either was
already in the in-memory manifest when the execution started (its move was
performed by an earlier execution) or its move event occurs in `pre`, before
the write.  On an aborted batch no manifest write occurs at all. -/
theorem remove_manifest_write_after_moves (t : Path) (fails : Path → Bool)
    (files : List Path) (s : St) (pre suf : List Ev) (m : List (Path × Path))
    (htr : (removeHandler t fails files s).tr = pre ++ Ev.writeMani m :: suf) :
    ∀ e ∈ m, e ∈ s.mani ∨ Ev.move e.1 e.2 ∈ pre := by
  intro e he
  simp only [removeHandler] at htr
  by_cases hok : (removeLoop t fails files { s with trashExists := true } 0).ok = true
  · rw [if_pos hok] at htr
    have hA : ∀ ev ∈ Ev.mkdirTrash ::
        (removeLoop t fails files { s with trashExists := true } 0).tr,
        ∀ m1, ev ≠ Ev.writeMani m1 := by
      intro ev hev m1
      rcases List.mem_cons.mp hev with rfl | hev1
      · intro hx; cases hx
      · obtain ⟨a, b, rfl⟩ := removeLoop_tr_moves t fails files _ 0 ev hev1
        intro hx; cases hx
    have htr1 : (Ev.mkdirTrash ::
        (removeLoop t fails files { s with trashExists := true } 0).tr) ++
        [Ev.writeMani (removeLoop t fails files { s with trashExists := true } 0).st.mani] =
        pre ++ Ev.writeMani m :: suf := by
      rw [List.cons_append]
      exact htr
    obtain ⟨hpre, hm, _⟩ := write_unique _ hA _ pre suf m htr1
    rw [hm] at he
    rcases removeLoop_mani_from_moves t fails files { s with trashExists := true } 0 e he
      with h1 | h1
    · exact Or.inl h1
    · refine Or.inr ?_
      rw [hpre]
      exact List.mem_cons_of_mem _ h1
  · rw [if_neg hok] at htr
    have htr2 : Ev.mkdirTrash ::
        (removeLoop t fails files { s with trashExists := true } 0).tr =
        pre ++ Ev.writeMani m :: suf := htr
    have hmem : Ev.writeMani m ∈ Ev.mkdirTrash ::
        (removeLoop t fails files { s with trashExists := true } 0).tr := by
      rw [htr2]
      exact List.mem_append_right pre (List.mem_cons_self _ _)
    rcases List.mem_cons.mp hmem with h1 | h1
    · cases h1
    · obtain ⟨a, b, hab⟩ := removeLoop_tr_moves t fails files _ 0 _ h1
      cases hab

/-- Witness for C5 at a concrete single-file batch. -/
theorem remove_manifest_write_after_moves_witness :
    ("/pics/a.jpg", "/pics/.dedup_trash/a.jpg") ∈ ([] : List (Path × Path)) ∨
    Ev.move "/pics/a.jpg" "/pics/.dedup_trash/a.jpg" ∈
      [Ev.mkdirTrash, Ev.move "/pics/a.jpg" "/pics/.dedup_trash/a.jpg"] :=
  remove_manifest_write_after_moves "/pics/.dedup_trash" noFail ["/pics/a.jpg"]
    (St.mk [("/pics/a.jpg", Content.photo 1)] false [])
    [Ev.mkdirTrash, Ev.move "/pics/a.jpg" "/pics/.dedup_trash/a.jpg"] []
    [("/pics/a.jpg", "/pics/.dedup_trash/a.jpg")]
    (by decide) ("/pics/a.jpg", "/pics/.dedup_trash/a.jpg") (by decide)

/-! ### Same base name collision (C7) -/

/-- C7 (amended): removing two distinct existing files that share a base name
(neither inside the trash directory, base name not `manifest.json`, no prior
quarantine state) succeeds for both: the first is quarantined at
`TRASH_DIR/name`, the second at `TRASH_DIR/{stem}_1{suffix}` — the numeric
suffix `_1` is inserted between the stem and the extension — the two
destinations are distinct so neither overwrites the other, both quarantined
copies keep their contents, and Undo restores each to its own original path. -/
theorem remove_same_name_collision (t p1 p2 : Path) (s : St)
    (hne : p1 ≠ p2)
    (hname : nameOf p1 = nameOf p2)
    (hocc1 : occupied s.fs p1 = true) (hocc2 : occupied s.fs p2 = true)
    (hu1 : isUnderB t p1 = false) (hu2 : isUnderB t p2 = false)
    (hmj : nameOf p1 ≠ "manifest.json")
    (h5 : s.fs.all (fun e => !(isUnderB t e.1)) = true)
    (h6 : s.mani = []) :
    (removeHandler t noFail [p1, p2] s).res = RmRes.ok 2 t ∧
    (removeHandler t noFail [p1, p2] s).st.mani =
      [(p1, baseDest t p1), (p2, candDest t p2 1)] ∧
    baseDest t p1 ≠ candDest t p2 1 ∧
    fsLookup (removeHandler t noFail [p1, p2] s).st.fs (baseDest t p1) =
      fsLookup s.fs p1 ∧
    fsLookup (removeHandler t noFail [p1, p2] s).st.fs (candDest t p2 1) =
      fsLookup s.fs p2 ∧
    fsLookup (undoHandler t noFail (removeHandler t noFail [p1, p2] s).st).1.fs p1 =
      fsLookup s.fs p1 ∧
    fsLookup (undoHandler t noFail (removeHandler t noFail [p1, p2] s).st).1.fs p2 =
      fsLookup s.fs p2 := by
  have hlookt := all_not_under_lookup s.fs t h5
  have hnu1 : ¬ underDir t p1 := not_underDir_of_isUnderB_false t p1 hu1
  have hnu2 : ¬ underDir t p2 := not_underDir_of_isUnderB_false t p2 hu2
  have hb1under : underDir t (baseDest t p1) := ⟨nameOf p1, rfl⟩
  have hcandunder : underDir t (candDest t p2 1) := ⟨_, rfl⟩
  obtain ⟨c1, hc1⟩ : ∃ c, fsLookup s.fs p1 = some c := Option.isSome_iff_exists.mp hocc1
  obtain ⟨c2, hc2⟩ : ∃ c, fsLookup s.fs p2 = some c := Option.isSome_iff_exists.mp hocc2
  have hb1free : occupied s.fs (baseDest t p1) = false := by
    unfold occupied
    rw [hlookt _ hb1under]
    rfl
  have hd1 : freshDest s.fs t p1 = baseDest t p1 := by
    rw [freshDest, if_neg (by rw [hb1free]; exact Bool.false_ne_true)]
  have hp1b : p1 ≠ baseDest t p1 := not_underDir_ne t p1 _ hnu1 hb1under
  have hp2b : p2 ≠ baseDest t p1 := not_underDir_ne t p2 _ hnu2 hb1under
  have hp1c : p1 ≠ candDest t p2 1 := not_underDir_ne t p1 _ hnu1 hcandunder
  have hp2c : p2 ≠ candDest t p2 1 := not_underDir_ne t p2 _ hnu2 hcandunder
  have hbb : baseDest t p2 = baseDest t p1 := by
    unfold baseDest
    rw [hname]
  have hcb : candDest t p2 1 ≠ baseDest t p1 := by
    rw [← hbb]
    exact candDest_ne_baseDest t p2 1
  -- state after the first move
  have hfs1b : fsLookup (fsMove s.fs p1 (baseDest t p1)) (baseDest t p1) = some c1 :=
    fsLookup_fsMove_dst s.fs p1 (baseDest t p1) c1 hc1
  have hfs1p2 : fsLookup (fsMove s.fs p1 (baseDest t p1)) p2 = some c2 := by
    rw [fsLookup_fsMove_other s.fs p1 (baseDest t p1) p2 (Ne.symm hne) hp2b]
    exact hc2
  have hocc2f : occupied (fsMove s.fs p1 (baseDest t p1)) p2 = true := by
    unfold occupied
    rw [hfs1p2]
    rfl
  have hfs1cand : fsLookup (fsMove s.fs p1 (baseDest t p1)) (candDest t p2 1) = none := by
    rw [fsLookup_fsMove_other s.fs p1 (baseDest t p1) _ (Ne.symm hp1c) hcb]
    exact hlookt _ hcandunder
  have hd2 : freshDest (fsMove s.fs p1 (baseDest t p1)) t p2 = candDest t p2 1 := by
    rw [freshDest]
    rw [if_pos (by
      rw [hbb]
      unfold occupied
      rw [hfs1b]
      rfl)]
    rw [freshLoop]
    rw [if_neg (by
      unfold occupied
      rw [hfs1cand]
      exact Bool.false_ne_true)]
  -- the loop value
  have hdict : dictInsert p2 (candDest t p2 1) [(p1, baseDest t p1)] =
      [(p1, baseDest t p1), (p2, candDest t p2 1)] := by
    rw [dictInsert, if_neg hne]
    rfl
  have hnil : removeLoop t noFail []
      (St.mk (fsMove (fsMove s.fs p1 (baseDest t p1)) p2 (candDest t p2 1)) true
        (dictInsert p2 (candDest t p2 1) (dictInsert p1 (baseDest t p1) s.mani))) 2 =
      ⟨St.mk (fsMove (fsMove s.fs p1 (baseDest t p1)) p2 (candDest t p2 1)) true
          [(p1, baseDest t p1), (p2, candDest t p2 1)], 2, [], true⟩ := by
    rw [h6, show dictInsert p1 (baseDest t p1) [] = [(p1, baseDest t p1)] from rfl, hdict]
    rfl
  have hL : removeLoop t noFail [p1, p2] (St.mk s.fs true s.mani) 0 =
      ⟨St.mk (fsMove (fsMove s.fs p1 (baseDest t p1)) p2 (candDest t p2 1)) true
          [(p1, baseDest t p1), (p2, candDest t p2 1)],
        2, [Ev.move p1 (baseDest t p1), Ev.move p2 (candDest t p2 1)], true⟩ :=
    removeLoop_cons_move_to t noFail p1 [p2] (St.mk s.fs true s.mani) 0 (baseDest t p1)
      ⟨St.mk (fsMove (fsMove s.fs p1 (baseDest t p1)) p2 (candDest t p2 1)) true
          [(p1, baseDest t p1), (p2, candDest t p2 1)], 2,
        [Ev.move p2 (candDest t p2 1)], true⟩
      hocc1 rfl hd1
      (removeLoop_cons_move_to t noFail p2 []
        (St.mk (fsMove s.fs p1 (baseDest t p1)) true
          (dictInsert p1 (baseDest t p1) s.mani)) 1 (candDest t p2 1)
        ⟨St.mk (fsMove (fsMove s.fs p1 (baseDest t p1)) p2 (candDest t p2 1)) true
            [(p1, baseDest t p1), (p2, candDest t p2 1)], 2, [], true⟩
        hocc2f rfl hd2 hnil)
  have hH : removeHandler t noFail [p1, p2] s =
      ⟨St.mk (fsWrite (fsMove (fsMove s.fs p1 (baseDest t p1)) p2 (candDest t p2 1))
            (manifestPath t)
            (Content.mani [(p1, baseDest t p1), (p2, candDest t p2 1)]))
          true [(p1, baseDest t p1), (p2, candDest t p2 1)],
        RmRes.ok 2 t,
        [Ev.mkdirTrash, Ev.move p1 (baseDest t p1), Ev.move p2 (candDest t p2 1),
          Ev.writeMani [(p1, baseDest t p1), (p2, candDest t p2 1)]]⟩ := by
    simp only [removeHandler]
    rw [show ({ s with trashExists := true } : St) = St.mk s.fs true s.mani from rfl, hL]
    rfl
  -- distinctness of destinations and manifest-path avoidance
  have hbm : baseDest t p1 ≠ manifestPath t := baseDest_ne_manifestPath t p1 hmj
  have hcm : candDest t p2 1 ≠ manifestPath t := candDest_ne_manifestPath t p2 1
  -- contents at the two destinations after remove
  have hfin_b : fsLookup (removeHandler t noFail [p1, p2] s).st.fs (baseDest t p1) =
      some c1 := by
    rw [hH]
    show fsLookup (fsWrite (fsMove (fsMove s.fs p1 (baseDest t p1)) p2 (candDest t p2 1))
        (manifestPath t)
        (Content.mani [(p1, baseDest t p1), (p2, candDest t p2 1)])) (baseDest t p1) = _
    rw [fsLookup_fsWrite_ne _ _ _ _ hbm,
      fsLookup_fsMove_other _ _ _ _ (Ne.symm hp2b) (Ne.symm hcb)]
    exact hfs1b
  have hfin_c : fsLookup (removeHandler t noFail [p1, p2] s).st.fs (candDest t p2 1) =
      some c2 := by
    rw [hH]
    show fsLookup (fsWrite (fsMove (fsMove s.fs p1 (baseDest t p1)) p2 (candDest t p2 1))
        (manifestPath t)
        (Content.mani [(p1, baseDest t p1), (p2, candDest t p2 1)])) (candDest t p2 1) = _
    rw [fsLookup_fsWrite_ne _ _ _ _ hcm]
    exact fsLookup_fsMove_dst _ _ _ _ hfs1p2
  -- restorability comes from the round-trip lemma
  have hrt := remove_undo_restores t [p1, p2] s
    (by simp [hne])
    (by intro q hq; rcases List.mem_cons.mp hq with rfl | hq1
        · exact hocc1
        · rw [List.mem_singleton.mp hq1]; exact hocc2)
    (by intro q hq; rcases List.mem_cons.mp hq with rfl | hq1
        · exact hu1
        · rw [List.mem_singleton.mp hq1]; exact hu2)
    (by intro q hq; rcases List.mem_cons.mp hq with rfl | hq1
        · exact hmj
        · rw [List.mem_singleton.mp hq1]; rw [← hname]; exact hmj)
    h5 h6
  refine ⟨by rw [hH], by rw [hH], Ne.symm hcb, by rw [hfin_b, hc1], by rw [hfin_c, hc2],
    ?_, ?_⟩
  · exact (hrt p1 (List.mem_cons_self _ _)).1
  · exact (hrt p2 (by simp)).1

/-- Counterexample to C7 as stated: two photos that both have base name
`photo.jpg`.  The second one's quarantine destination is
`photo_1.jpg` — the counter is joined with an underscore and inserted before
the extension — not a name formed with the `-1` suffix the claim describes;
no path with a `-1` suffix is ever created. -/
theorem remove_collision_suffix_cex :
    (removeHandler "/pics/.dedup_trash" noFail ["/pics/a/photo.jpg", "/pics/b/photo.jpg"]
        (St.mk [("/pics/a/photo.jpg", Content.photo 1), ("/pics/b/photo.jpg", Content.photo 2)]
          false [])).st.mani =
      [("/pics/a/photo.jpg", "/pics/.dedup_trash/photo.jpg"),
        ("/pics/b/photo.jpg", "/pics/.dedup_trash/photo_1.jpg")] ∧
    fsLookup (removeHandler "/pics/.dedup_trash" noFail
        ["/pics/a/photo.jpg", "/pics/b/photo.jpg"]
        (St.mk [("/pics/a/photo.jpg", Content.photo 1), ("/pics/b/photo.jpg", Content.photo 2)]
          false [])).st.fs "/pics/.dedup_trash/photo-1.jpg" = none ∧
    fsLookup (removeHandler "/pics/.dedup_trash" noFail
        ["/pics/a/photo.jpg", "/pics/b/photo.jpg"]
        (St.mk [("/pics/a/photo.jpg", Content.photo 1), ("/pics/b/photo.jpg", Content.photo 2)]
          false [])).st.fs "/pics/.dedup_trash/photo.jpg-1" = none ∧
    ("/pics/.dedup_trash/photo_1.jpg" : String) ≠ "/pics/.dedup_trash/photo-1.jpg" := by
  decide

/-- Witness for the amended C7 at a concrete input. -/
theorem remove_same_name_collision_witness :
    (removeHandler "/pics/.dedup_trash" noFail ["/pics/a/photo.jpg", "/pics/b/photo.jpg"]
        (St.mk [("/pics/a/photo.jpg", Content.photo 1), ("/pics/b/photo.jpg", Content.photo 2)]
          false [])).res = RmRes.ok 2 "/pics/.dedup_trash" ∧
    (removeHandler "/pics/.dedup_trash" noFail ["/pics/a/photo.jpg", "/pics/b/photo.jpg"]
        (St.mk [("/pics/a/photo.jpg", Content.photo 1), ("/pics/b/photo.jpg", Content.photo 2)]
          false [])).st.mani =
      [("/pics/a/photo.jpg", baseDest "/pics/.dedup_trash" "/pics/a/photo.jpg"),
        ("/pics/b/photo.jpg", candDest "/pics/.dedup_trash" "/pics/b/photo.jpg" 1)] ∧
    baseDest "/pics/.dedup_trash" "/pics/a/photo.jpg" ≠
      candDest "/pics/.dedup_trash" "/pics/b/photo.jpg" 1 ∧
    fsLookup (removeHandler "/pics/.dedup_trash" noFail
        ["/pics/a/photo.jpg", "/pics/b/photo.jpg"]
        (St.mk [("/pics/a/photo.jpg", Content.photo 1), ("/pics/b/photo.jpg", Content.photo 2)]
          false [])).st.fs (baseDest "/pics/.dedup_trash" "/pics/a/photo.jpg") =
      fsLookup (St.mk [("/pics/a/photo.jpg", Content.photo 1),
        ("/pics/b/photo.jpg", Content.photo 2)] false []).fs "/pics/a/photo.jpg" ∧
    fsLookup (removeHandler "/pics/.dedup_trash" noFail
        ["/pics/a/photo.jpg", "/pics/b/photo.jpg"]
        (St.mk [("/pics/a/photo.jpg", Content.photo 1), ("/pics/b/photo.jpg", Content.photo 2)]
          false [])).st.fs (candDest "/pics/.dedup_trash" "/pics/b/photo.jpg" 1) =
      fsLookup (St.mk [("/pics/a/photo.jpg", Content.photo 1),
        ("/pics/b/photo.jpg", Content.photo 2)] false []).fs "/pics/b/photo.jpg" ∧
    fsLookup (undoHandler "/pics/.dedup_trash" noFail (removeHandler "/pics/.dedup_trash"
        noFail ["/pics/a/photo.jpg", "/pics/b/photo.jpg"]
        (St.mk [("/pics/a/photo.jpg", Content.photo 1), ("/pics/b/photo.jpg", Content.photo 2)]
          false [])).st).1.fs "/pics/a/photo.jpg" =
      fsLookup (St.mk [("/pics/a/photo.jpg", Content.photo 1),
        ("/pics/b/photo.jpg", Content.photo 2)] false []).fs "/pics/a/photo.jpg" ∧
    fsLookup (undoHandler "/pics/.dedup_trash" noFail (removeHandler "/pics/.dedup_trash"
        noFail ["/pics/a/photo.jpg", "/pics/b/photo.jpg"]
        (St.mk [("/pics/a/photo.jpg", Content.photo 1), ("/pics/b/photo.jpg", Content.photo 2)]
          false [])).st).1.fs "/pics/b/photo.jpg" =
      fsLookup (St.mk [("/pics/a/photo.jpg", Content.photo 1),
        ("/pics/b/photo.jpg", Content.photo 2)] false []).fs "/pics/b/photo.jpg" :=
  remove_same_name_collision "/pics/.dedup_trash" "/pics/a/photo.jpg" "/pics/b/photo.jpg"
    (St.mk [("/pics/a/photo.jpg", Content.photo 1), ("/pics/b/photo.jpg", Content.photo 2)]
      false [])
    (by decide) (by decide) (by decide) (by decide) (by decide) (by decide) (by decide)
    (by decide) rfl

/-! ### The manifest destinations stay injective (C10) -/

/-- Invariant carried across `/remove` batches: quarantine destinations
recorded in the manifest are pairwise distinct, lie inside the trash
directory, and each is still occupied by its quarantined file. -/
def maniInv (t : Path) (s : St) : Prop :=
  (s.mani.map Prod.snd).Nodup ∧
  (∀ v ∈ s.mani.map Prod.snd, underDir t v) ∧
  (∀ v ∈ s.mani.map Prod.snd, occupied s.fs v = true)

theorem map_snd_dictInsert (k v : Path) :
    ∀ (m : List (Path × Path)),
      (m.map Prod.snd).Nodup → v ∉ m.map Prod.snd →
      ((dictInsert k v m).map Prod.snd).Nodup ∧
      ∀ w ∈ (dictInsert k v m).map Prod.snd, w = v ∨ w ∈ m.map Prod.snd := by
  intro m
  induction m with
  | nil =>
    intro _ _
    exact ⟨List.nodup_singleton v, fun w hw => Or.inl (List.mem_singleton.mp hw)⟩
  | cons e rest ih =>
    obtain ⟨k1, v1⟩ := e
    intro hm hv
    have hm1 : (rest.map Prod.snd).Nodup := (List.nodup_cons.mp hm).2
    have hm0 : v1 ∉ rest.map Prod.snd := (List.nodup_cons.mp hm).1
    have hv1 : v ≠ v1 := fun hx => hv (hx ▸ List.mem_cons_self _ _)
    have hv2 : v ∉ rest.map Prod.snd := fun hx => hv (List.mem_cons_of_mem _ hx)
    rw [dictInsert]
    by_cases hk : k1 = k
    · rw [if_pos hk]
      refine ⟨List.nodup_cons.mpr ⟨hv2, hm1⟩, fun w hw => ?_⟩
      rcases List.mem_cons.mp hw with rfl | hw1
      · exact Or.inl rfl
      · exact Or.inr (List.mem_cons_of_mem _ hw1)
    · rw [if_neg hk]
      obtain ⟨ihnd, ihch⟩ := ih hm1 hv2
      refine ⟨List.nodup_cons.mpr ⟨?_, ihnd⟩, fun w hw => ?_⟩
      · intro hx
        rcases ihch v1 hx with h1 | h1
        · exact hv1 h1.symm
        · exact hm0 h1
      · rcases List.mem_cons.mp hw with rfl | hw1
        · exact Or.inr (List.mem_cons_self _ _)
        · rcases ihch w hw1 with h1 | h1
          · exact Or.inl h1
          · exact Or.inr (List.mem_cons_of_mem _ h1)

theorem removeLoop_maniInv (t : Path) (fails : Path → Bool) :
    ∀ (files : List Path) (s : St) (moved : Nat),
      (∀ p ∈ files, isUnderB t p = false) →
      maniInv t s →
      maniInv t (removeLoop t fails files s moved).st := by
  intro files
  induction files with
  | nil => intro s moved _ hinv; exact hinv
  | cons p rest ih =>
    intro s moved hfiles hinv
    have hrest : ∀ q ∈ rest, isUnderB t q = false :=
      fun q hq => hfiles q (List.mem_cons_of_mem _ hq)
    by_cases ho : occupied s.fs p = true
    · by_cases hf : fails p = true
      · rw [removeLoop_cons_fail t fails p rest s moved ho hf]
        exact hinv
      · have hf1 : fails p = false := by
          cases hb : fails p
          · rfl
          · exact absurd hb hf
        rw [removeLoop_cons_move t fails p rest s moved ho hf1]
        have hnup : ¬ underDir t p :=
          not_underDir_of_isUnderB_false t p (hfiles p (List.mem_cons_self _ _))
        have hfree : occupied s.fs (freshDest s.fs t p) = false := freshDest_free s.fs t p
        have hdund : underDir t (freshDest s.fs t p) := underDir_freshDest s.fs t p
        obtain ⟨c, hc⟩ : ∃ c, fsLookup s.fs p = some c := Option.isSome_iff_exists.mp ho
        have hnotval : freshDest s.fs t p ∉ s.mani.map Prod.snd := by
          intro hx
          have := hinv.2.2 _ hx
          rw [hfree] at this
          cases this
        obtain ⟨hnd, hch⟩ :=
          map_snd_dictInsert p (freshDest s.fs t p) s.mani hinv.1 hnotval
        have hinv1 : maniInv t (St.mk (fsMove s.fs p (freshDest s.fs t p)) s.trashExists
            (dictInsert p (freshDest s.fs t p) s.mani)) := by
          refine ⟨hnd, fun w hw => ?_, fun w hw => ?_⟩
          · rcases hch w hw with rfl | h1
            · exact hdund
            · exact hinv.2.1 w h1
          · rcases hch w hw with rfl | h1
            · unfold occupied
              rw [fsLookup_fsMove_dst s.fs p _ c hc]
              rfl
            · have hw1 : w ≠ p := fun hx => hnup (hx ▸ hinv.2.1 w h1)
              have hw2 : w ≠ freshDest s.fs t p := by
                intro hx
                have hocc2 := hinv.2.2 w h1
                rw [hx, hfree] at hocc2
                cases hocc2
              unfold occupied
              rw [fsLookup_fsMove_other s.fs p _ w hw1 hw2]
              exact hinv.2.2 w h1
        exact ih _ (moved + 1) hrest hinv1
    · have ho1 : occupied s.fs p = false := by
        cases hb : occupied s.fs p
        · rfl
        · exact absurd hb ho
      rw [removeLoop_cons_skip t fails p rest s moved ho1]
      exact ih s moved hrest hinv

theorem removeHandler_maniInv (t : Path) (fails : Path → Bool) (files : List Path) (s : St)
    (hfiles : ∀ p ∈ files, isUnderB t p = false)
    (hinv : maniInv t s) :
    maniInv t (removeHandler t fails files s).st := by
  have h1 : maniInv t (removeLoop t fails files { s with trashExists := true } 0).st :=
    removeLoop_maniInv t fails files { s with trashExists := true } 0 hfiles hinv
  simp only [removeHandler]
  by_cases hok : (removeLoop t fails files { s with trashExists := true } 0).ok = true
  · rw [if_pos hok]
    refine ⟨h1.1, h1.2.1, fun v hv => ?_⟩
    by_cases hvm : v = manifestPath t
    · show occupied (fsWrite (removeLoop t fails files { s with trashExists := true } 0).st.fs
        (manifestPath t)
        (Content.mani (removeLoop t fails files { s with trashExists := true } 0).st.mani))
        v = true
      unfold occupied
      rw [hvm, fsLookup_fsWrite_self]
      rfl
    · show occupied (fsWrite (removeLoop t fails files { s with trashExists := true } 0).st.fs
        (manifestPath t)
        (Content.mani (removeLoop t fails files { s with trashExists := true } 0).st.mani))
        v = true
      unfold occupied
      rw [fsLookup_fsWrite_ne _ _ _ _ hvm]
      exact h1.2.2 v hv
  · rw [if_neg hok]
    exact h1

theorem runBatches_maniInv (t : Path) :
    ∀ (batches : List (List Path × (Path → Bool))) (s : St),
      (∀ b ∈ batches, ∀ p ∈ b.1, isUnderB t p = false) →
      maniInv t s →
      maniInv t (runBatches t batches s) := by
  intro batches
  induction batches with
  | nil => intro s _ hinv; exact hinv
  | cons b bs ih =>
    intro s hb hinv
    rw [runBatches]
    exact ih _ (fun b1 hb1 => hb b1 (List.mem_cons_of_mem _ hb1))
      (removeHandler_maniInv t b.2 b.1 s (hb b (List.mem_cons_self _ _)) hinv)

/-- C10: starting with an empty manifest, after any sequence of `/remove`
batches whose requested paths lie outside the quarantine directory (no
interference with quarantined files), no two manifest entries share a
quarantine destination, and every recorded destination is still occupied by
its quarantined file — each new destination is chosen unoccupied and
previously quarantined files keep occupying their recorded paths. -/
theorem manifest_destinations_injective (t : Path)
    (batches : List (List Path × (Path → Bool))) (s : St)
    (hb : ∀ b ∈ batches, ∀ p ∈ b.1, isUnderB t p = false)
    (hm : s.mani = []) :
    ((runBatches t batches s).mani.map Prod.snd).Nodup ∧
    ∀ v ∈ (runBatches t batches s).mani.map Prod.snd,
      occupied (runBatches t batches s).fs v = true := by
  have hinv : maniInv t s := by
    refine ⟨by rw [hm]; exact List.nodup_nil, fun v hv => ?_, fun v hv => ?_⟩ <;>
      (rw [hm] at hv; cases hv)
  have h := runBatches_maniInv t batches s hb hinv
  exact ⟨h.1, h.2.2⟩

/-- Witness for C10: two batches quarantining two distinct files that share a
base name; the two recorded destinations are distinct and both occupied. -/
theorem manifest_destinations_injective_witness :
    ((runBatches "/pics/.dedup_trash"
        [(["/pics/a/x.jpg"], noFail), (["/pics/b/x.jpg"], noFail)]
        (St.mk [("/pics/a/x.jpg", Content.photo 1), ("/pics/b/x.jpg", Content.photo 2)]
          false [])).mani.map Prod.snd).Nodup ∧
    ∀ v ∈ (runBatches "/pics/.dedup_trash"
        [(["/pics/a/x.jpg"], noFail), (["/pics/b/x.jpg"], noFail)]
        (St.mk [("/pics/a/x.jpg", Content.photo 1), ("/pics/b/x.jpg", Content.photo 2)]
          false [])).mani.map Prod.snd,
      occupied (runBatches "/pics/.dedup_trash"
        [(["/pics/a/x.jpg"], noFail), (["/pics/b/x.jpg"], noFail)]
        (St.mk [("/pics/a/x.jpg", Content.photo 1), ("/pics/b/x.jpg", Content.photo 2)]
          false [])).fs v = true :=
  manifest_destinations_injective "/pics/.dedup_trash"
    [(["/pics/a/x.jpg"], noFail), (["/pics/b/x.jpg"], noFail)]
    (St.mk [("/pics/a/x.jpg", Content.photo 1), ("/pics/b/x.jpg", Content.photo 2)]
      false [])
    (by
      intro b hb p hp
      rcases List.mem_cons.mp hb with rfl | hb1
      · rw [List.mem_singleton.mp hp]; decide
      · rw [List.mem_singleton.mp hb1] at hp
        rw [List.mem_singleton.mp hp]; decide)
    rfl

end PhotoDedup
